import Mathlib

/-!
Verification of the stale-branch crawler (src/largefileofstale.py, detail mode,
and src/larrgerepobranches.py, count mode).  The remote GitHub API is modelled
as an oracle environment: each URL family is a function from its key (page
number, commit sha, ...) to the response the resilient executor
`safe_api_call` would hand back (`conn` standing for the executor giving up
and returning None).  The per-repository run is embedded as an executable
state-transition function that also records, in order, every network call the
Python code would issue, each call annotated with the length of
`stale_branches_info` at the moment the call is made.
-/

namespace StaleData

/-- Ninety days in seconds, the `stale_threshold = 90 * 24 * 60 * 60` computed
identically in both scripts. -/
def stale_threshold : Int := 90 * 24 * 60 * 60

/-- One branch object of a branches-listing page: its `name` and `commit.sha`
(the only two fields the scripts read). -/
structure BranchInfo where
  name : String
  sha  : String
deriving DecidableEq, Repr

/-- Outcome of `safe_api_call` on a branches-page URL: `conn` models the
executor returning None after exhausting its retries, `resp` a response with
its HTTP status code and decoded JSON branch list. -/
inductive PageResult where
  | conn
  | resp (status : Nat) (branches : List BranchInfo)
deriving DecidableEq, Repr

/-- Outcome of `safe_api_call` on a commit URL.  The field `parsedDate` is the
outcome of the `try` block that reads `commit_data['commit']['committer']['date']`
and parses it with strict format `%Y-%m-%dT%H:%M:%SZ`: `some t` when parsing
succeeds with epoch-second timestamp `t`, and `none` when the payload shape or
the date string makes that block raise (the per-branch `except` path). -/
inductive CommitResult where
  | conn
  | resp (status : Nat) (parsedDate : Option Int)
deriving DecidableEq, Repr

/-- The remote world one repository run observes.  `rateLimitOk` is the value
of the `check_rate_limit` call at function entry (the only one whose failure
changes control flow).  `repoResp` is the `safe_api_call` on the repository
metadata URL: `none` for executor failure, otherwise status code and the
`default_branch` field of the payload.  `mergeResolve` abstracts the string
`find_last_merged_branch` returns for a branch; that function is itself
modelled separately below. -/
structure Env where
  rateLimitOk : Bool
  repoResp : Option (Nat × Option String)
  pageResp : Nat → PageResult
  commitResp : String → CommitResult
  mergeResolve : String → String

/-- A row of `stale_branches_info`.  The source stores the commit date as a
formatted string; the model keeps the parsed epoch timestamp, which the
formatted string is a rendering of. -/
structure StaleRecord where
  branch_name : String
  last_commit_date : Int
  last_merged_to : String
deriving DecidableEq, Repr

/-- Per-repository checkpoint entry, with the keys both scripts read via
`repo_checkpoint.get(...)`; a missing `total_branches` key is `none`. -/
structure Checkpoint where
  processed_branches : List String
  stale_branches_info : List StaleRecord
  stale_count : Nat
  pages_processed : Nat
  total_branches : Option Nat
deriving DecidableEq, Repr

/-- The network calls a run can issue, beyond the rate-limit probes. -/
inductive NetCall where
  | repoFetch
  | pageFetch (page : Nat)
  | commitFetch (branch : String) (sha : String)
  | mergeSearch (branch : String)
deriving DecidableEq, Repr

/-- Branch-level calls in the sense of the early-exit property: page fetches,
commit fetches and merge-resolution searches, as opposed to the repository
metadata fetch. -/
def NetCall.branchLevel : NetCall → Bool
  | .repoFetch => false
  | .pageFetch _ => true
  | .commitFetch _ _ => true
  | .mergeSearch _ => true

/-- In-memory state of a detail-mode run: the mutable lists
`processed_branches` and `stale_branches_info`, the `pages_processed` counter,
and the instrumentation trace of network calls (each annotated with
`len(stale_branches_info)` at the moment of the call). -/
structure DState where
  processed : List String
  info : List StaleRecord
  pagesProcessed : Nat
  trace : List (NetCall × Nat)
deriving DecidableEq, Repr

/-- Result of processing one branch (or a list of branches): `next` continues
with the updated state, `done` is the early `return stale_branches_info, status`
out of the whole function. -/
inductive StepRes where
  | next (st : DState)
  | done (st : DState) (status : String)
deriving DecidableEq, Repr

/-- The state carried by either outcome. -/
def StepRes.state : StepRes → DState
  | .next st => st
  | .done st _ => st

/-- The repository default branch as both scripts compute it: fall back to
the literal "main" when the metadata fetch returned None or a non-200 status,
or when the payload lacks the `default_branch` key. -/
def default_branch_of (repoResp : Option (Nat × Option String)) : String :=
  match repoResp with
  | none => "main"
  | some (status, db) => if status ≠ 200 then "main" else db.getD "main"

/-- First page the enumeration fetches: `pages_processed + 1` when resuming a
checkpoint with `pages_processed > 0`, else page 1. -/
def start_page (pages_processed : Nat) : Nat :=
  if 0 < pages_processed then pages_processed + 1 else 1

/-- Detail-mode treatment of one branch, lines 312-369 of the source: skip the
default branch (append to processed, nothing else); fetch the tip commit
(skip, without marking processed, on executor failure or non-200); inside the
try block parse the date (on failure fall through to the processed-append);
when stale, resolve the merge target, append the record, and return
"Completed" at once if the expected count is reached -- note that this early
return happens before the processed-append. -/
def processBranchDetail (env : Env) (repo_stale_count : Nat) (current_time : Int)
    (default_branch : String) (st : DState) (b : BranchInfo) : StepRes :=
  if b.name = default_branch then
    .next { st with processed := st.processed ++ [b.name] }
  else
    let st1 : DState :=
      { st with trace := st.trace ++ [(.commitFetch b.name b.sha, st.info.length)] }
    match env.commitResp b.sha with
    | .conn => .next st1
    | .resp status parsedDate =>
      if status ≠ 200 then .next st1
      else
        match parsedDate with
        | none => .next { st1 with processed := st1.processed ++ [b.name] }
        | some t =>
          if stale_threshold < current_time - t then
            let st2 : DState :=
              { st1 with trace := st1.trace ++ [(.mergeSearch b.name, st1.info.length)] }
            let st3 : DState :=
              { st2 with info := st2.info ++ [⟨b.name, t, env.mergeResolve b.name⟩] }
            if repo_stale_count ≤ st3.info.length then
              .done st3 "Completed"
            else
              .next { st3 with processed := st3.processed ++ [b.name] }
          else
            .next { st1 with processed := st1.processed ++ [b.name] }

/-- Sequential branch processing with propagation of the early return. -/
def processList (env : Env) (c : Nat) (now : Int) (db : String) :
    DState → List BranchInfo → StepRes
  | st, [] => .next st
  | st, b :: bs =>
    match processBranchDetail env c now db st b with
    | .next st' => processList env c now db st' bs
    | .done st' s => .done st' s

/-- The `chunk_size = min(50, len(branches_to_process))` of the source. -/
def chunk_size (n : Nat) : Nat := min 50 n

/-- The `chunks_total = (n + chunk_size - 1) // chunk_size` of the source;
`none` models the ZeroDivisionError Python raises when `chunk_size` is 0,
which happens exactly when the list of branches to process is empty. -/
def chunks_total (n : Nat) : Option Nat :=
  if chunk_size n = 0 then none else some ((n + chunk_size n - 1) / chunk_size n)

/-- The slices `branches_to_process[i*cs : i*cs + cs]` for i = 0 .. ct-1;
slice i of the list equals slice i-1 of the list with its first cs elements
dropped, which is the recursion used here. -/
def sliceChunks (cs : Nat) : Nat → List BranchInfo → List (List BranchInfo)
  | 0, _ => []
  | ct + 1, l => l.take cs :: sliceChunks cs ct (l.drop cs)

/-- The chunk loop: each chunk is handed to the branch loop, the early return
propagates out of both loops. -/
def processChunks (env : Env) (c : Nat) (now : Int) (db : String) :
    DState → List (List BranchInfo) → StepRes
  | st, [] => .next st
  | st, ch :: rest =>
    match processList env c now db st ch with
    | .next st' => processChunks env c now db st' rest
    | .done st' s => .done st' s

/-- Outcome of the detail-mode paging loop: `ok` broke out of the loop with the
accumulated `all_branches`, `exitWith` is an early `return` out of the whole
function, `fuelOut` is the artificial bound on the number of loop iterations
the model imposes (the Python loop has no such bound). -/
inductive PagingRes where
  | ok (st : DState) (all_branches : List BranchInfo)
  | exitWith (st : DState) (status : String)
  | fuelOut (st : DState)
deriving DecidableEq, Repr

/-- The state carried by any paging outcome. -/
def PagingRes.state : PagingRes → DState
  | .ok st _ => st
  | .exitWith st _ => st
  | .fuelOut st => st

/-- Detail-mode paging loop, lines 253-286 of the source: fetch the page
(return "Connection Error" on executor failure, "Repo Not Found" on 404,
"Error" on any other non-200); break on an empty page; otherwise extend
`all_branches`, persist `pages_processed = page`, advance the page counter,
and break early when enough stale records are already known. -/
def fetchPages (env : Env) (repo_stale_count : Nat) :
    Nat → Nat → DState → List BranchInfo → PagingRes
  | 0, _, st, _ => .fuelOut st
  | fuel + 1, page, st, acc =>
    let st1 : DState := { st with trace := st.trace ++ [(.pageFetch page, st.info.length)] }
    match env.pageResp page with
    | .conn => .exitWith st1 "Connection Error"
    | .resp status branches =>
      if status = 404 then .exitWith st1 "Repo Not Found"
      else if status ≠ 200 then .exitWith st1 "Error"
      else if branches = [] then .ok st1 acc
      else
        let st2 : DState := { st1 with pagesProcessed := page }
        if repo_stale_count ≤ st2.info.length then .ok st2 (acc ++ branches)
        else fetchPages env repo_stale_count fuel (page + 1) st2 (acc ++ branches)

/-- The in-memory view of a loaded checkpoint entry. -/
def ckState (ck : Checkpoint) : DState :=
  { processed := ck.processed_branches, info := ck.stale_branches_info,
    pagesProcessed := ck.pages_processed, trace := [] }

/-- State right after the repository metadata fetch (the first network call of
the main path). -/
def initStateD (ck : Checkpoint) : DState :=
  { ckState ck with trace := [(.repoFetch, ck.stale_branches_info.length)] }

/-- The `branch['name'] not in processed_branches` filter of both scripts. -/
def branches_to_process (processed : List String) (all_branches : List BranchInfo) :
    List BranchInfo :=
  all_branches.filter (fun b => decide (¬ b.name ∈ processed))

/-- How a detail-mode run ends: a `return info, status` pair (with `none` for
the `return None, "Rate Limit Error"` case), the ZeroDivisionError of the
chunk computation, or exhaustion of the model's paging fuel. -/
inductive DetailExit where
  | ret (info : Option (List StaleRecord)) (status : String)
  | zeroDiv
  | fuelOut
deriving DecidableEq, Repr

/-- The whole of `get_stale_branches_info` for one repository, returning the
final in-memory state (whose `processed` and `info` fields are what the last
checkpoint save recorded) together with the function's return value. -/
def get_stale_branches_info (env : Env) (repo_stale_count : Nat) (current_time : Int)
    (ck : Checkpoint) (fuel : Nat) : DState × DetailExit :=
  if env.rateLimitOk = false then (ckState ck, .ret none "Rate Limit Error")
  else if ck.stale_branches_info ≠ [] ∧ repo_stale_count ≤ ck.stale_branches_info.length then
    (ckState ck, .ret (some ck.stale_branches_info) "Completed")
  else
    match fetchPages env repo_stale_count fuel (start_page ck.pages_processed)
        (initStateD ck) [] with
    | .fuelOut st => (st, .fuelOut)
    | .exitWith st status => (st, .ret (some st.info) status)
    | .ok st all_branches =>
      match chunks_total (branches_to_process st.processed all_branches).length with
      | none => (st, .zeroDiv)
      | some ct =>
        match processChunks env repo_stale_count current_time
            (default_branch_of env.repoResp) st
            (sliceChunks (chunk_size (branches_to_process st.processed all_branches).length)
              ct (branches_to_process st.processed all_branches)) with
        | .next st' => (st', .ret (some st'.info) "Completed")
        | .done st' s => (st', .ret (some st'.info) s)

/-- In-memory state of a count-mode run (src/larrgerepobranches.py): the
`processed_branches` list, the `stale_count` accumulator, `pages_processed`,
the cached `total_branches`, and the instrumentation trace. -/
structure CState where
  processed : List String
  staleCount : Nat
  pagesProcessed : Nat
  totalBranches : Option Nat
  trace : List NetCall
deriving DecidableEq, Repr

/-- Count-mode treatment of one branch, lines 212-250 of the source: identical
to detail mode except that a stale branch only increments `stale_count`, there
is no merge resolution and no early return, and the processed-append always
runs after the try block. -/
def processBranchCount (env : Env) (current_time : Int) (default_branch : String)
    (st : CState) (b : BranchInfo) : CState :=
  if b.name = default_branch then
    { st with processed := st.processed ++ [b.name] }
  else
    let st1 : CState := { st with trace := st.trace ++ [.commitFetch b.name b.sha] }
    match env.commitResp b.sha with
    | .conn => st1
    | .resp status parsedDate =>
      if status ≠ 200 then st1
      else
        match parsedDate with
        | none => { st1 with processed := st1.processed ++ [b.name] }
        | some t =>
          if stale_threshold < current_time - t then
            { st1 with staleCount := st1.staleCount + 1,
                       processed := st1.processed ++ [b.name] }
          else
            { st1 with processed := st1.processed ++ [b.name] }

/-- Count-mode branch loop (no early exit, a plain fold). -/
def processListCount (env : Env) (now : Int) (db : String) :
    CState → List BranchInfo → CState
  | st, [] => st
  | st, b :: bs => processListCount env now db (processBranchCount env now db st b) bs

/-- Count-mode chunk loop. -/
def processChunksCount (env : Env) (now : Int) (db : String) :
    CState → List (List BranchInfo) → CState
  | st, [] => st
  | st, ch :: rest => processChunksCount env now db (processListCount env now db st ch) rest

/-- Outcome of the count-mode paging loop. -/
inductive PagingResC where
  | ok (st : CState) (all_branches : List BranchInfo)
  | exitWith (st : CState) (status : String)
  | fuelOut (st : CState)
deriving DecidableEq, Repr

/-- The state carried by any count-mode paging outcome. -/
def PagingResC.state : PagingResC → CState
  | .ok st _ => st
  | .exitWith st _ => st
  | .fuelOut st => st

/-- Count-mode paging loop, lines 154-182 of the source: like the detail-mode
loop but with no early break on a satisfied stale count. -/
def fetchPagesCount (env : Env) :
    Nat → Nat → CState → List BranchInfo → PagingResC
  | 0, _, st, _ => .fuelOut st
  | fuel + 1, page, st, acc =>
    let st1 : CState := { st with trace := st.trace ++ [.pageFetch page] }
    match env.pageResp page with
    | .conn => .exitWith st1 "Connection Error"
    | .resp status branches =>
      if status = 404 then .exitWith st1 "Repo Not Found"
      else if status ≠ 200 then .exitWith st1 "Error"
      else if branches = [] then .ok st1 acc
      else
        let st2 : CState := { st1 with pagesProcessed := page }
        fetchPagesCount env fuel (page + 1) st2 (acc ++ branches)

/-- The in-memory view of a loaded checkpoint entry, count mode. -/
def ckStateC (ck : Checkpoint) : CState :=
  { processed := ck.processed_branches, staleCount := ck.stale_count,
    pagesProcessed := ck.pages_processed, totalBranches := ck.total_branches, trace := [] }

/-- State right after the repository metadata fetch, count mode. -/
def initStateC (ck : Checkpoint) : CState :=
  { ckStateC ck with trace := [.repoFetch] }

/-- The `if 'total_branches' not in repo_checkpoint` cache of the count mode. -/
def setTotal (st : CState) (n : Nat) : CState :=
  match st.totalBranches with
  | none => { st with totalBranches := some n }
  | some _ => st

/-- How a count-mode run ends: the stale count, one of the sentinel status
strings, the ZeroDivisionError, or fuel exhaustion of the model. -/
inductive CountExit where
  | count (n : Nat)
  | status (s : String)
  | zeroDiv
  | fuelOut
deriving DecidableEq, Repr

/-- The whole of `get_stale_branch_count_rest` for one repository. -/
def get_stale_branch_count_rest (env : Env) (current_time : Int)
    (ck : Checkpoint) (fuel : Nat) : CState × CountExit :=
  if env.rateLimitOk = false then (ckStateC ck, .status "Rate Limit Error")
  else
    match fetchPagesCount env fuel (start_page ck.pages_processed) (initStateC ck) [] with
    | .fuelOut st => (st, .fuelOut)
    | .exitWith st status => (st, .status status)
    | .ok st all_branches =>
      match chunks_total (branches_to_process st.processed all_branches).length with
      | none => (setTotal st all_branches.length, .zeroDiv)
      | some ct =>
        let stt := processChunksCount env current_time (default_branch_of env.repoResp)
          (setTotal st all_branches.length)
          (sliceChunks (chunk_size (branches_to_process st.processed all_branches).length)
            ct (branches_to_process st.processed all_branches));
        (stt, .count stt.staleCount)

/-- The `MAX_RETRIES = 5` of both scripts. -/
def MAX_RETRIES : Nat := 5

/-- What one physical GET attempt does: raise a transport-level exception
(SSL, connection, timeout or other request exception) or deliver a response,
abstracted by its status code. -/
inductive AttemptRes where
  | fail
  | success (resp : Nat)
deriving DecidableEq, Repr

/-- The resilient executor `safe_api_call`, as a function of the oracle that
decides the fate of the attempt with a given `retry_count`.  Returns the
response (or `none` after giving up) together with the list of backoff waits
performed, in order. -/
def safe_api_call (oracle : Nat → AttemptRes) (retry_count : Nat) :
    Option Nat × List Nat :=
  match oracle retry_count with
  | .success r => (some r, [])
  | .fail =>
    if h : retry_count < MAX_RETRIES then
      let rest := safe_api_call oracle (retry_count + 1)
      (rest.1, 5 * 2 ^ retry_count :: rest.2)
    else (none, [])
termination_by MAX_RETRIES - retry_count
decreasing_by simp_wf; omega

/-- A pull-request item of the issue-search payload; `number` is `none` when
the `number` key is absent (its access then raises, landing in the except). -/
structure PRItem where
  number : Option Nat
deriving DecidableEq, Repr

/-- The merged-pull-request search response: status, `total_count`, `items`. -/
structure PRSearchResp where
  status : Nat
  total_count : Nat
  items : List PRItem
deriving DecidableEq, Repr

/-- The pull-request detail response; `base_ref` is
`pr_data.get('base', {}).get('ref')`, hence `none` when either key is absent. -/
structure PRDetailResp where
  status : Nat
  base_ref : Option String
deriving DecidableEq, Repr

/-- A commit item of the commit-search payload; `message` is `none` when the
nested `commit.message` keys are absent (its access then raises). -/
structure CommitItem where
  message : Option String
deriving DecidableEq, Repr

/-- A commit-search response: status, `total_count`, `items`. -/
structure CommitSearchResp where
  status : Nat
  total_count : Nat
  items : List CommitItem
deriving DecidableEq, Repr

/-- The repository metadata response used inside merge resolution. -/
structure RepoMetaResp where
  status : Nat
  default_branch : Option String
deriving DecidableEq, Repr

/-- The remote world `find_last_merged_branch` observes.  `reSearch i msg` is
the outcome of `re.search(patterns[i], msg)` followed by the source's group
selection (group 1 for one-group patterns, group 2 for two-group patterns):
`some target` on a match, `none` on no match.  The regular-expression engine
is the external `re` library, so it enters the model as this oracle. -/
structure MergeEnv where
  prSearch : PRSearchResp
  prDetail : Nat → PRDetailResp
  commitSearch : CommitSearchResp
  repoFetch : RepoMetaResp
  dbSearch : CommitSearchResp
  reSearch : Nat → String → Option String

/-- The network calls merge resolution can issue, in issue order. -/
inductive MergeCall where
  | prSearch
  | prDetail (n : Nat)
  | commitSearch
  | repoFetch
  | dbSearch
deriving DecidableEq, Repr

/-- The source's inner pattern loop: the first of the five patterns that
matches the message decides the target. -/
def firstPatternMatch (env : MergeEnv) (msg : String) : Option String :=
  (List.range 5).findSome? fun i => env.reSearch i msg

/-- Scan of the first up-to-three commit-search items: a missing message key
raises (error), the first pattern match on any message returns the target. -/
def scanMessages (env : MergeEnv) : List CommitItem → Except Unit (Option String)
  | [] => .ok none
  | c :: rest =>
    match c.message with
    | none => .error ()
    | some msg =>
      match firstPatternMatch env msg with
      | some target => .ok (some target)
      | none => scanMessages env rest

/-- The Python truthiness test `if base_branch:` on an optional string. -/
def strTruthy : Option String → Bool
  | none => false
  | some s => s ≠ ""

/-- Step 1 of merge resolution (lines 130-153): search merged pull requests
with this branch as head; on a hit, fetch the first item's detail and return
its base branch name when present and truthy.  `ok (some r, tr)` is an early
return with value r, `ok (none, tr)` falls through to the next step, `error`
is a raised exception (empty items despite a positive total, or a missing
number key). -/
def mergeStep1 (env : MergeEnv) (tr : List MergeCall) :
    Except (List MergeCall) (Option (Option String) × List MergeCall) :=
  let tr := tr ++ [.prSearch]
  if env.prSearch.status = 200 then
    if 0 < env.prSearch.total_count then
      match env.prSearch.items.head? with
      | none => .error tr
      | some pr =>
        match pr.number with
        | none => .error tr
        | some n =>
          let tr := tr ++ [.prDetail n]
          let d := env.prDetail n
          if d.status = 200 then
            if strTruthy d.base_ref then .ok (some d.base_ref, tr)
            else .ok (none, tr)
          else .ok (none, tr)
    else .ok (none, tr)
  else .ok (none, tr)

/-- Step 2 (lines 157-187): search commits mentioning a merge of the branch;
scan up to the first three items against the five regex patterns. -/
def mergeStep2 (env : MergeEnv) (tr : List MergeCall) :
    Except (List MergeCall) (Option (Option String) × List MergeCall) :=
  let tr := tr ++ [.commitSearch]
  if env.commitSearch.status = 200 then
    if 0 < env.commitSearch.total_count then
      match scanMessages env (env.commitSearch.items.take 3) with
      | .error _ => .error tr
      | .ok (some target) => .ok (some (some target), tr)
      | .ok none => .ok (none, tr)
    else .ok (none, tr)
  else .ok (none, tr)

/-- Step 3 (lines 191-208) and the final fall-through: fetch the repository's
default branch; when a commit search mentioning both names has any hit, return
the default branch (which is the Python value None when the key is absent);
otherwise the result is the sentinel "Unknown". -/
def mergeStep3 (env : MergeEnv) (tr : List MergeCall) : Option String × List MergeCall :=
  let tr := tr ++ [.repoFetch]
  if env.repoFetch.status = 200 then
    let tr := tr ++ [.dbSearch]
    if env.dbSearch.status = 200 then
      if 0 < env.dbSearch.total_count then (env.repoFetch.default_branch, tr)
      else (some "Unknown", tr)
    else (some "Unknown", tr)
  else (some "Unknown", tr)

/-- The body of `find_last_merged_branch` inside its try block. -/
def find_last_merged_branch_try (env : MergeEnv) :
    Except (List MergeCall) (Option String × List MergeCall) :=
  match mergeStep1 env [] with
  | .error tr => .error tr
  | .ok (some r, tr) => .ok (r, tr)
  | .ok (none, tr) =>
    match mergeStep2 env tr with
    | .error tr => .error tr
    | .ok (some r, tr) => .ok (r, tr)
    | .ok (none, tr) => .ok (mergeStep3 env tr)

/-- The whole of `find_last_merged_branch`: any exception inside the try block
yields the sentinel "Error".  The result is the Python return value, with
`none` standing for the Python value None (reachable in step 3 when the
repository payload lacks a default branch). -/
def find_last_merged_branch (env : MergeEnv) : Option String × List MergeCall :=
  match find_last_merged_branch_try env with
  | .ok rt => rt
  | .error tr => (some "Error", tr)

/-! Helper lemmas: what one detail-mode branch step can do to the state. -/

theorem processBranchDetail_facts (env : Env) (c : Nat) (now : Int) (db : String)
    (st : DState) (b : BranchInfo) :
    (∃ ext, ((processBranchDetail env c now db st b).state).trace = st.trace ++ ext ∧
        ∀ e ∈ ext, (e.1 = NetCall.commitFetch b.name b.sha ∨ e.1 = NetCall.mergeSearch b.name)
          ∧ e.2 = st.info.length) ∧
    (((processBranchDetail env c now db st b).state).processed = st.processed ∨
      ((processBranchDetail env c now db st b).state).processed = st.processed ++ [b.name]) ∧
    (((processBranchDetail env c now db st b).state).info = st.info ∨
      ∃ t m, ((processBranchDetail env c now db st b).state).info
          = st.info ++ [⟨b.name, t, m⟩] ∧ ¬ b.name = db) ∧
    (∀ st' s, processBranchDetail env c now db st b = .done st' s →
        s = "Completed" ∧ c ≤ st'.info.length) ∧
    (∀ st', processBranchDetail env c now db st b = .next st' →
        st.info.length < c → st'.info.length < c) ∧
    ((processBranchDetail env c now db st b).state).pagesProcessed = st.pagesProcessed := by
  simp only [processBranchDetail]
  split
  · -- default branch: skip, append to processed only
    rename_i hn
    refine ⟨⟨[], by simp [StepRes.state], by simp⟩, Or.inr rfl, Or.inl rfl, ?_, ?_, rfl⟩
    · intro st' s h; exact absurd h (by simp)
    · intro st' h hlt
      simp only [StepRes.next.injEq] at h
      subst h; simpa using hlt
  · rename_i hn
    split
    · -- executor failure on the commit URL: skip without marking processed
      refine ⟨⟨[(.commitFetch b.name b.sha, st.info.length)], rfl, by simp⟩,
        Or.inl rfl, Or.inl rfl, ?_, ?_, rfl⟩
      · intro st' s h; exact absurd h (by simp)
      · intro st' h hlt
        simp only [StepRes.next.injEq] at h
        subst h; simpa using hlt
    · rename_i status parsed
      split
      · -- non-200 status: skip without marking processed
        refine ⟨⟨[(.commitFetch b.name b.sha, st.info.length)], rfl, by simp⟩,
          Or.inl rfl, Or.inl rfl, ?_, ?_, rfl⟩
        · intro st' s h; exact absurd h (by simp)
        · intro st' h hlt
          simp only [StepRes.next.injEq] at h
          subst h; simpa using hlt
      · split
        · -- parse failure: the except path, still marked processed
          refine ⟨⟨[(.commitFetch b.name b.sha, st.info.length)], rfl, by simp⟩,
            Or.inr rfl, Or.inl rfl, ?_, ?_, rfl⟩
          · intro st' s h; exact absurd h (by simp)
          · intro st' h hlt
            simp only [StepRes.next.injEq] at h
            subst h; simpa using hlt
        · rename_i t
          split
          · -- stale branch
            rename_i hstale
            split
            · -- expected count reached: early return before the processed-append
              rename_i hc
              refine ⟨⟨[(.commitFetch b.name b.sha, st.info.length),
                  (.mergeSearch b.name, st.info.length)], by simp [StepRes.state], by simp⟩,
                Or.inl rfl, Or.inr ⟨t, env.mergeResolve b.name, rfl, hn⟩, ?_, ?_, rfl⟩
              · intro st' s h
                simp only [StepRes.done.injEq] at h
                obtain ⟨h1, h2⟩ := h
                subst h1
                exact ⟨h2.symm, hc⟩
              · intro st' h; exact absurd h (by simp)
            · -- stale, target not yet reached: record appended, then processed
              rename_i hc
              refine ⟨⟨[(.commitFetch b.name b.sha, st.info.length),
                  (.mergeSearch b.name, st.info.length)], by simp [StepRes.state], by simp⟩,
                Or.inr rfl, Or.inr ⟨t, env.mergeResolve b.name, rfl, hn⟩, ?_, ?_, rfl⟩
              · intro st' s h; exact absurd h (by simp)
              · intro st' h hlt
                simp only [StepRes.next.injEq] at h
                subst h
                simp only [StepRes.state, List.length_append, List.length_cons,
                  List.length_nil] at hc ⊢
                omega
          · -- not stale: marked processed, nothing else
            refine ⟨⟨[(.commitFetch b.name b.sha, st.info.length)], rfl, by simp⟩,
              Or.inr rfl, Or.inl rfl, ?_, ?_, rfl⟩
            · intro st' s h; exact absurd h (by simp)
            · intro st' h hlt
              simp only [StepRes.next.injEq] at h
              subst h; simpa using hlt

/-! What the detail-mode branch loop can do, by induction over the branch list. -/

theorem processList_facts (env : Env) (c : Nat) (now : Int) (db : String) :
    ∀ (l : List BranchInfo) (st : DState),
      (∃ ext,
          ((processList env c now db st l).state).trace = st.trace ++ ext ∧
          (∀ e ∈ ext, ∃ b, b ∈ l ∧
              (e.1 = NetCall.commitFetch b.name b.sha ∨ e.1 = NetCall.mergeSearch b.name)) ∧
          (st.info.length < c → ∀ e ∈ ext, e.2 < c)) ∧
      (∃ delta,
          ((processList env c now db st l).state).processed = st.processed ++ delta ∧
          delta.Sublist (l.map BranchInfo.name)) ∧
      (∀ r ∈ ((processList env c now db st l).state).info,
          r ∈ st.info ∨ ¬ r.branch_name = db) ∧
      (∀ st' s, processList env c now db st l = .done st' s → s = "Completed") ∧
      (∀ st', processList env c now db st l = .next st' →
          st.info.length < c → st'.info.length < c) ∧
      ((processList env c now db st l).state).pagesProcessed = st.pagesProcessed := by
  intro l
  induction l with
  | nil =>
    intro st
    refine ⟨⟨[], by simp [processList, StepRes.state], by simp, by simp⟩,
      ⟨[], by simp [processList, StepRes.state], List.nil_sublist _⟩,
      ?_, ?_, ?_, by simp [processList, StepRes.state]⟩
    · intro r hr; exact Or.inl (by simpa [processList, StepRes.state] using hr)
    · intro st' s h; exact absurd h (by simp [processList])
    · intro st' h hlt
      simp only [processList, StepRes.next.injEq] at h
      subst h; exact hlt
  | cons b bs ih =>
    intro st
    obtain ⟨⟨ext1, htr1, hev1⟩, hp1, hinfo1, hdone1, hnext1, hpg1⟩ :=
      processBranchDetail_facts env c now db st b
    cases hstep : processBranchDetail env c now db st b with
    | done st1 s1 =>
      rw [hstep] at htr1 hp1 hinfo1 hpg1
      simp only [StepRes.state] at htr1 hp1 hinfo1 hpg1
      have hrun : processList env c now db st (b :: bs) = .done st1 s1 := by
        simp [processList, hstep]
      refine ⟨⟨ext1, by simp [hrun, StepRes.state, htr1], ?_, ?_⟩, ?_, ?_, ?_, ?_,
        by simp [hrun, StepRes.state, hpg1]⟩
      · intro e he
        exact ⟨b, List.mem_cons_self b bs, (hev1 e he).1⟩
      · intro hlt e he
        rw [(hev1 e he).2]; exact hlt
      · rcases hp1 with h | h
        · exact ⟨[], by simp [hrun, StepRes.state, h], List.nil_sublist _⟩
        · exact ⟨[b.name], by simp [hrun, StepRes.state, h],
            (List.nil_sublist _).cons₂ b.name⟩
      · intro r hr
        simp only [hrun, StepRes.state] at hr
        rcases hinfo1 with h | ⟨t, m, h, hne⟩
        · exact Or.inl (h ▸ hr)
        · rw [h] at hr
          rcases List.mem_append.mp hr with h2 | h2
          · exact Or.inl h2
          · right
            simp only [List.mem_singleton] at h2
            subst h2; exact hne
      · intro st' s' h
        rw [hrun] at h
        simp only [StepRes.done.injEq] at h
        exact h.2 ▸ (hdone1 st1 s1 hstep).1
      · intro st' h
        rw [hrun] at h
        exact absurd h (by simp)
    | next st1 =>
      rw [hstep] at htr1 hp1 hinfo1 hpg1
      simp only [StepRes.state] at htr1 hp1 hinfo1 hpg1
      have hrun : processList env c now db st (b :: bs) = processList env c now db st1 bs := by
        simp [processList, hstep]
      obtain ⟨⟨ext2, htr2, hev2, hb2⟩, ⟨d2, hp2, hs2⟩, hinfo2, hdone2, hnext2, hpg2⟩ := ih st1
      have hinv : st.info.length < c → st1.info.length < c := hnext1 st1 hstep
      refine ⟨⟨ext1 ++ ext2, ?_, ?_, ?_⟩, ?_, ?_, ?_, ?_, ?_⟩
      · rw [hrun, htr2, htr1, List.append_assoc]
      · intro e he
        rcases List.mem_append.mp he with h | h
        · exact ⟨b, List.mem_cons_self b bs, (hev1 e h).1⟩
        · obtain ⟨b', hb', hor⟩ := hev2 e h
          exact ⟨b', List.mem_cons_of_mem b hb', hor⟩
      · intro hlt e he
        rcases List.mem_append.mp he with h | h
        · rw [(hev1 e h).2]; exact hlt
        · exact hb2 (hinv hlt) e h
      · rcases hp1 with h | h
        · refine ⟨d2, ?_, hs2.cons b.name⟩
          rw [hrun, hp2, h]
        · refine ⟨b.name :: d2, ?_, hs2.cons₂ b.name⟩
          rw [hrun, hp2, h, List.append_assoc]; rfl
      · intro r hr
        rw [hrun] at hr
        rcases hinfo2 r hr with h | h
        · rcases hinfo1 with h1 | ⟨t, m, h1, hne⟩
          · exact Or.inl (h1 ▸ h)
          · rw [h1] at h
            rcases List.mem_append.mp h with h2 | h2
            · exact Or.inl h2
            · right
              simp only [List.mem_singleton] at h2
              subst h2; exact hne
        · exact Or.inr h
      · intro st' s' h
        rw [hrun] at h
        exact hdone2 st' s' h
      · intro st' h hlt
        rw [hrun] at h
        exact hnext2 st' h (hinv hlt)
      · rw [hrun, hpg2, hpg1]

/-! Chunking: the chunk loop visits exactly the branches of the filtered list,
in order, so it is the plain branch loop on that list. -/

theorem sliceChunks_join (cs : Nat) :
    ∀ (ct : Nat) (l : List BranchInfo), l.length ≤ ct * cs →
      (sliceChunks cs ct l).flatten = l := by
  intro ct
  induction ct with
  | zero =>
    intro l h
    simp only [Nat.zero_mul, Nat.le_zero, List.length_eq_zero] at h
    simp [h, sliceChunks]
  | succ n ihn =>
    intro l h
    have hlen : (l.drop cs).length ≤ n * cs := by
      simp only [List.length_drop]
      have : (n + 1) * cs = n * cs + cs := by ring
      omega
    simp only [sliceChunks, List.flatten_cons, ihn (l.drop cs) hlen]
    exact List.take_append_drop cs l

theorem chunks_total_mul (n ct : Nat) (h : chunks_total n = some ct) :
    n ≤ ct * chunk_size n := by
  by_cases hn : n = 0
  · subst hn; simp
  · have hcs : chunk_size n = min 50 n := rfl
    have hcs1 : 1 ≤ chunk_size n := by
      simp only [chunk_size]; omega
    have hct : ct = (n + chunk_size n - 1) / chunk_size n := by
      simp only [chunks_total] at h
      rw [if_neg (by omega)] at h
      exact (Option.some.injEq _ _ ▸ h).symm
    subst hct
    set cs := chunk_size n with hdef
    have he : n + cs - 1 = (n - 1) + cs := by omega
    rw [he, Nat.add_div_right _ (by omega : 0 < cs)]
    have h6 : (n - 1) / cs < (n - 1) / cs + 1 := Nat.lt_succ_self _
    have h7 : n - 1 < ((n - 1) / cs + 1) * cs :=
      (Nat.div_lt_iff_lt_mul (by omega : 0 < cs)).mp h6
    omega

theorem processList_append (env : Env) (c : Nat) (now : Int) (db : String) :
    ∀ (l1 l2 : List BranchInfo) (st : DState),
      processList env c now db st (l1 ++ l2) =
        match processList env c now db st l1 with
        | .next st' => processList env c now db st' l2
        | .done st' s => .done st' s := by
  intro l1
  induction l1 with
  | nil => intro l2 st; simp [processList]
  | cons b bs ih =>
    intro l2 st
    simp only [List.cons_append, processList]
    cases processBranchDetail env c now db st b with
    | next st' => exact ih l2 st'
    | done st' s => rfl

theorem processChunks_eq_join (env : Env) (c : Nat) (now : Int) (db : String) :
    ∀ (chs : List (List BranchInfo)) (st : DState),
      processChunks env c now db st chs = processList env c now db st chs.flatten := by
  intro chs
  induction chs with
  | nil => intro st; simp [processChunks, processList]
  | cons ch rest ih =>
    intro st
    simp only [processChunks, List.flatten_cons, processList_append]
    cases processList env c now db st ch with
    | next st' => exact ih st'
    | done st' s => rfl

/-- Processing via the source's chunk slicing is processing of the whole list. -/
theorem processChunks_slices (env : Env) (c : Nat) (now : Int) (db : String)
    (l : List BranchInfo) (ct : Nat) (h : chunks_total l.length = some ct) (st : DState) :
    processChunks env c now db st (sliceChunks (chunk_size l.length) ct l) =
      processList env c now db st l := by
  rw [processChunks_eq_join, sliceChunks_join _ _ _ (chunks_total_mul _ _ h)]

/-! Paging: the loop preserves the branch-classification state and only adds
page-fetch events, at pages from the start page on. -/

theorem fetchPages_facts (env : Env) (c : Nat) :
    ∀ (fuel page : Nat) (st : DState) (acc : List BranchInfo),
      ((fetchPages env c fuel page st acc).state).processed = st.processed ∧
      ((fetchPages env c fuel page st acc).state).info = st.info ∧
      (∃ ext, ((fetchPages env c fuel page st acc).state).trace = st.trace ++ ext ∧
          ∀ e ∈ ext, ∃ p, page ≤ p ∧ e = (NetCall.pageFetch p, st.info.length)) := by
  intro fuel
  induction fuel with
  | zero =>
    intro page st acc
    exact ⟨rfl, rfl, ⟨[], by simp [fetchPages, PagingRes.state], by simp⟩⟩
  | succ n ih =>
    intro page st acc
    simp only [fetchPages]
    split
    · exact ⟨rfl, rfl, ⟨[(NetCall.pageFetch page, st.info.length)],
        by simp [PagingRes.state], by simp⟩⟩
    · rename_i status branches heq
      split
      · exact ⟨rfl, rfl, ⟨[(NetCall.pageFetch page, st.info.length)],
          by simp [PagingRes.state], by simp⟩⟩
      · split
        · exact ⟨rfl, rfl, ⟨[(NetCall.pageFetch page, st.info.length)],
            by simp [PagingRes.state], by simp⟩⟩
        · split
          · exact ⟨rfl, rfl, ⟨[(NetCall.pageFetch page, st.info.length)],
              by simp [PagingRes.state], by simp⟩⟩
          · split
            · exact ⟨rfl, rfl, ⟨[(NetCall.pageFetch page, st.info.length)],
                by simp [PagingRes.state], by simp⟩⟩
            · obtain ⟨hp, hi, ⟨ext, htr, hev⟩⟩ :=
                ih (page + 1) ⟨st.processed, st.info, page,
                  st.trace ++ [(NetCall.pageFetch page, st.info.length)]⟩ (acc ++ branches)
              refine ⟨hp, hi, ⟨(NetCall.pageFetch page, st.info.length) :: ext, ?_, ?_⟩⟩
              · rw [htr]; simp
              · intro e he
                rcases List.mem_cons.mp he with h | h
                · exact ⟨page, le_refl _, h⟩
                · obtain ⟨p, hple, hpe⟩ := hev e h
                  exact ⟨p, by omega, hpe⟩

theorem fetchPages_first (env : Env) (c : Nat) (fuel page : Nat) (st : DState)
    (acc : List BranchInfo) (h : 1 ≤ fuel) :
    (NetCall.pageFetch page, st.info.length) ∈
      ((fetchPages env c fuel page st acc).state).trace := by
  cases fuel with
  | zero => omega
  | succ n =>
    simp only [fetchPages]
    split
    · simp [PagingRes.state]
    · split
      · simp [PagingRes.state]
      · split
        · simp [PagingRes.state]
        · split
          · simp [PagingRes.state]
          · split
            · simp [PagingRes.state]
            · obtain ⟨-, -, ⟨ext, htr, -⟩⟩ :=
                fetchPages_facts env c n (page + 1) ⟨st.processed, st.info, page,
                  st.trace ++ [(NetCall.pageFetch page, st.info.length)]⟩ (acc ++ _)
              rw [htr]
              simp

/-! Count-mode analogs of the step, loop and paging lemmas. -/

theorem processBranchCount_facts (env : Env) (now : Int) (db : String)
    (st : CState) (b : BranchInfo) :
    (∃ ext, (processBranchCount env now db st b).trace = st.trace ++ ext ∧
        ∀ e ∈ ext, e = NetCall.commitFetch b.name b.sha) ∧
    ((processBranchCount env now db st b).processed = st.processed ∨
      (processBranchCount env now db st b).processed = st.processed ++ [b.name]) ∧
    (processBranchCount env now db st b).pagesProcessed = st.pagesProcessed := by
  simp only [processBranchCount]
  split
  · exact ⟨⟨[], by simp, by simp⟩, Or.inr rfl, rfl⟩
  · split
    · exact ⟨⟨[NetCall.commitFetch b.name b.sha], rfl, by simp⟩, Or.inl rfl, rfl⟩
    · split
      · exact ⟨⟨[NetCall.commitFetch b.name b.sha], rfl, by simp⟩, Or.inl rfl, rfl⟩
      · split
        · exact ⟨⟨[NetCall.commitFetch b.name b.sha], rfl, by simp⟩, Or.inr rfl, rfl⟩
        · split
          · exact ⟨⟨[NetCall.commitFetch b.name b.sha], rfl, by simp⟩, Or.inr rfl, rfl⟩
          · exact ⟨⟨[NetCall.commitFetch b.name b.sha], rfl, by simp⟩, Or.inr rfl, rfl⟩

theorem processListCount_facts (env : Env) (now : Int) (db : String) :
    ∀ (l : List BranchInfo) (st : CState),
      (∃ ext, (processListCount env now db st l).trace = st.trace ++ ext ∧
          ∀ e ∈ ext, ∃ b, b ∈ l ∧ e = NetCall.commitFetch b.name b.sha) ∧
      (∃ delta, (processListCount env now db st l).processed = st.processed ++ delta ∧
          delta.Sublist (l.map BranchInfo.name)) ∧
      (processListCount env now db st l).pagesProcessed = st.pagesProcessed := by
  intro l
  induction l with
  | nil =>
    intro st
    exact ⟨⟨[], by simp [processListCount], by simp⟩,
      ⟨[], by simp [processListCount], List.nil_sublist _⟩, rfl⟩
  | cons b bs ih =>
    intro st
    obtain ⟨⟨ext1, htr1, hev1⟩, hp1, hpg1⟩ := processBranchCount_facts env now db st b
    obtain ⟨⟨ext2, htr2, hev2⟩, ⟨d2, hp2, hs2⟩, hpg2⟩ := ih (processBranchCount env now db st b)
    have hrun : processListCount env now db st (b :: bs)
        = processListCount env now db (processBranchCount env now db st b) bs := rfl
    refine ⟨⟨ext1 ++ ext2, ?_, ?_⟩, ?_, ?_⟩
    · rw [hrun, htr2, htr1, List.append_assoc]
    · intro e he
      rcases List.mem_append.mp he with h | h
      · exact ⟨b, List.mem_cons_self b bs, hev1 e h⟩
      · obtain ⟨b', hb', he'⟩ := hev2 e h
        exact ⟨b', List.mem_cons_of_mem b hb', he'⟩
    · rcases hp1 with h | h
      · refine ⟨d2, ?_, hs2.cons b.name⟩
        rw [hrun, hp2, h]
      · refine ⟨b.name :: d2, ?_, hs2.cons₂ b.name⟩
        rw [hrun, hp2, h, List.append_assoc]; rfl
    · rw [hrun, hpg2, hpg1]

theorem processListCount_append (env : Env) (now : Int) (db : String) :
    ∀ (l1 l2 : List BranchInfo) (st : CState),
      processListCount env now db st (l1 ++ l2) =
        processListCount env now db (processListCount env now db st l1) l2 := by
  intro l1
  induction l1 with
  | nil => intro l2 st; rfl
  | cons b bs ih => intro l2 st; exact ih l2 (processBranchCount env now db st b)

theorem processChunksCount_eq_join (env : Env) (now : Int) (db : String) :
    ∀ (chs : List (List BranchInfo)) (st : CState),
      processChunksCount env now db st chs = processListCount env now db st chs.flatten := by
  intro chs
  induction chs with
  | nil => intro st; rfl
  | cons ch rest ih =>
    intro st
    simp only [processChunksCount, List.flatten_cons, processListCount_append]
    exact ih _

/-- Count-mode chunked processing is plain processing of the whole list. -/
theorem processChunksCount_slices (env : Env) (now : Int) (db : String)
    (l : List BranchInfo) (ct : Nat) (h : chunks_total l.length = some ct) (st : CState) :
    processChunksCount env now db st (sliceChunks (chunk_size l.length) ct l) =
      processListCount env now db st l := by
  rw [processChunksCount_eq_join]
  congr 1
  exact sliceChunks_join _ _ _ (chunks_total_mul _ _ h)

theorem fetchPagesCount_facts (env : Env) :
    ∀ (fuel page : Nat) (st : CState) (acc : List BranchInfo),
      ((fetchPagesCount env fuel page st acc).state).processed = st.processed ∧
      ((fetchPagesCount env fuel page st acc).state).staleCount = st.staleCount ∧
      ((fetchPagesCount env fuel page st acc).state).totalBranches = st.totalBranches ∧
      (∃ ext, ((fetchPagesCount env fuel page st acc).state).trace = st.trace ++ ext ∧
          ∀ e ∈ ext, ∃ p, page ≤ p ∧ e = NetCall.pageFetch p) := by
  intro fuel
  induction fuel with
  | zero =>
    intro page st acc
    exact ⟨rfl, rfl, rfl, ⟨[], by simp [fetchPagesCount, PagingResC.state], by simp⟩⟩
  | succ n ih =>
    intro page st acc
    simp only [fetchPagesCount]
    split
    · exact ⟨rfl, rfl, rfl, ⟨[NetCall.pageFetch page],
        by simp [PagingResC.state], by simp⟩⟩
    · rename_i status branches heq
      split
      · exact ⟨rfl, rfl, rfl, ⟨[NetCall.pageFetch page],
          by simp [PagingResC.state], by simp⟩⟩
      · split
        · exact ⟨rfl, rfl, rfl, ⟨[NetCall.pageFetch page],
            by simp [PagingResC.state], by simp⟩⟩
        · split
          · exact ⟨rfl, rfl, rfl, ⟨[NetCall.pageFetch page],
              by simp [PagingResC.state], by simp⟩⟩
          · obtain ⟨hp, hsc, htb, ⟨ext, htr, hev⟩⟩ :=
              ih (page + 1) ⟨st.processed, st.staleCount, page, st.totalBranches,
                st.trace ++ [NetCall.pageFetch page]⟩ (acc ++ branches)
            refine ⟨hp, hsc, htb, ⟨NetCall.pageFetch page :: ext, ?_, ?_⟩⟩
            · rw [htr]; simp
            · intro e he
              rcases List.mem_cons.mp he with h | h
              · exact ⟨page, le_refl _, h⟩
              · obtain ⟨p, hple, hpe⟩ := hev e h
                exact ⟨p, by omega, hpe⟩

theorem fetchPagesCount_first (env : Env) (fuel page : Nat) (st : CState)
    (acc : List BranchInfo) (h : 1 ≤ fuel) :
    NetCall.pageFetch page ∈ ((fetchPagesCount env fuel page st acc).state).trace := by
  cases fuel with
  | zero => omega
  | succ n =>
    simp only [fetchPagesCount]
    split
    · simp [PagingResC.state]
    · split
      · simp [PagingResC.state]
      · split
        · simp [PagingResC.state]
        · split
          · simp [PagingResC.state]
          · obtain ⟨-, -, -, ⟨ext, htr, -⟩⟩ :=
              fetchPagesCount_facts env n (page + 1) ⟨st.processed, st.staleCount, page,
                st.totalBranches, st.trace ++ [NetCall.pageFetch page]⟩ (acc ++ _)
            rw [htr]
            simp

/-! The five ways a detail-mode run can go, as rewrite equations. -/

theorem runD_eq_rate (env : Env) (c : Nat) (now : Int) (ck : Checkpoint) (fuel : Nat)
    (h : env.rateLimitOk = false) :
    get_stale_branches_info env c now ck fuel = (ckState ck, .ret none "Rate Limit Error") := by
  unfold get_stale_branches_info
  rw [h, if_pos rfl]

theorem runD_eq_entry (env : Env) (c : Nat) (now : Int) (ck : Checkpoint) (fuel : Nat)
    (h : env.rateLimitOk = true)
    (h2 : ck.stale_branches_info ≠ [] ∧ c ≤ ck.stale_branches_info.length) :
    get_stale_branches_info env c now ck fuel
      = (ckState ck, .ret (some ck.stale_branches_info) "Completed") := by
  unfold get_stale_branches_info
  rw [h, if_neg (by simp), if_pos h2]

theorem runD_eq_fuelOut (env : Env) (c : Nat) (now : Int) (ck : Checkpoint) (fuel : Nat)
    (st : DState) (h : env.rateLimitOk = true)
    (h2 : ¬ (ck.stale_branches_info ≠ [] ∧ c ≤ ck.stale_branches_info.length))
    (hfp : fetchPages env c fuel (start_page ck.pages_processed) (initStateD ck) []
      = .fuelOut st) :
    get_stale_branches_info env c now ck fuel = (st, .fuelOut) := by
  unfold get_stale_branches_info
  rw [h, if_neg (by simp), if_neg h2]
  simp only [hfp]

theorem runD_eq_exit (env : Env) (c : Nat) (now : Int) (ck : Checkpoint) (fuel : Nat)
    (st : DState) (status : String) (h : env.rateLimitOk = true)
    (h2 : ¬ (ck.stale_branches_info ≠ [] ∧ c ≤ ck.stale_branches_info.length))
    (hfp : fetchPages env c fuel (start_page ck.pages_processed) (initStateD ck) []
      = .exitWith st status) :
    get_stale_branches_info env c now ck fuel = (st, .ret (some st.info) status) := by
  unfold get_stale_branches_info
  rw [h, if_neg (by simp), if_neg h2]
  simp only [hfp]

theorem runD_eq_ok (env : Env) (c : Nat) (now : Int) (ck : Checkpoint) (fuel : Nat)
    (st : DState) (allb : List BranchInfo) (h : env.rateLimitOk = true)
    (h2 : ¬ (ck.stale_branches_info ≠ [] ∧ c ≤ ck.stale_branches_info.length))
    (hfp : fetchPages env c fuel (start_page ck.pages_processed) (initStateD ck) []
      = .ok st allb) :
    get_stale_branches_info env c now ck fuel =
      match chunks_total (branches_to_process st.processed allb).length with
      | none => (st, .zeroDiv)
      | some ct =>
        match processChunks env c now (default_branch_of env.repoResp) st
            (sliceChunks (chunk_size (branches_to_process st.processed allb).length)
              ct (branches_to_process st.processed allb)) with
        | .next st' => (st', .ret (some st'.info) "Completed")
        | .done st' s => (st', .ret (some st'.info) s) := by
  unfold get_stale_branches_info
  rw [h, if_neg (by simp), if_neg h2]
  simp only [hfp]

/-- When paging succeeds and leaves a nonempty work list, the run is the branch
loop on the filtered list (chunking removed by the slicing equivalence). -/
theorem runD_eq_processing (env : Env) (c : Nat) (now : Int) (ck : Checkpoint) (fuel : Nat)
    (st : DState) (allb : List BranchInfo) (ct : Nat) (h : env.rateLimitOk = true)
    (h2 : ¬ (ck.stale_branches_info ≠ [] ∧ c ≤ ck.stale_branches_info.length))
    (hfp : fetchPages env c fuel (start_page ck.pages_processed) (initStateD ck) []
      = .ok st allb)
    (hct : chunks_total (branches_to_process st.processed allb).length = some ct) :
    get_stale_branches_info env c now ck fuel =
      match processList env c now (default_branch_of env.repoResp) st
          (branches_to_process st.processed allb) with
      | .next st' => (st', .ret (some st'.info) "Completed")
      | .done st' s => (st', .ret (some st'.info) s) := by
  rw [runD_eq_ok env c now ck fuel st allb h h2 hfp, hct]
  simp only [processChunks_slices env c now (default_branch_of env.repoResp) _ ct hct st]

/-! Run-level facts for the detail mode. -/

theorem initStateD_info (ck : Checkpoint) :
    (initStateD ck).info = ck.stale_branches_info := rfl

theorem initStateD_processed (ck : Checkpoint) :
    (initStateD ck).processed = ck.processed_branches := rfl

/-- Every record in the final detailed state was in the checkpoint already or
names a non-default branch. -/
theorem runD_info_facts (env : Env) (c : Nat) (now : Int) (ck : Checkpoint) (fuel : Nat) :
    ∀ r ∈ ((get_stale_branches_info env c now ck fuel).1).info,
      r ∈ ck.stale_branches_info ∨ ¬ r.branch_name = default_branch_of env.repoResp := by
  intro r hr
  cases hrl : env.rateLimitOk with
  | false =>
    rw [runD_eq_rate env c now ck fuel hrl] at hr
    exact Or.inl hr
  | true =>
    by_cases hck : ck.stale_branches_info ≠ [] ∧ c ≤ ck.stale_branches_info.length
    · rw [runD_eq_entry env c now ck fuel hrl hck] at hr
      exact Or.inl hr
    · obtain ⟨hPp, hPi, -⟩ :=
        fetchPages_facts env c fuel (start_page ck.pages_processed) (initStateD ck) []
      cases hfp : fetchPages env c fuel (start_page ck.pages_processed) (initStateD ck) [] with
      | fuelOut st =>
        rw [hfp] at hPi
        rw [runD_eq_fuelOut env c now ck fuel st hrl hck hfp] at hr
        exact Or.inl (by rw [← show st.info = ck.stale_branches_info from hPi]; exact hr)
      | exitWith st status =>
        rw [hfp] at hPi
        rw [runD_eq_exit env c now ck fuel st status hrl hck hfp] at hr
        exact Or.inl (by rw [← show st.info = ck.stale_branches_info from hPi]; exact hr)
      | ok st allb =>
        rw [hfp] at hPi hPp
        simp only [PagingRes.state, initStateD_info, initStateD_processed] at hPi hPp
        cases hct : chunks_total (branches_to_process st.processed allb).length with
        | none =>
          rw [runD_eq_ok env c now ck fuel st allb hrl hck hfp, hct] at hr
          exact Or.inl (by rw [← hPi]; exact hr)
        | some ct =>
          rw [runD_eq_processing env c now ck fuel st allb ct hrl hck hfp hct] at hr
          obtain ⟨-, -, hinfo, -, -, -⟩ :=
            processList_facts env c now (default_branch_of env.repoResp)
              (branches_to_process st.processed allb) st
          cases hpl : processList env c now (default_branch_of env.repoResp) st
              (branches_to_process st.processed allb) with
          | next st' =>
            rw [hpl] at hinfo
            simp only [StepRes.state] at hinfo
            simp only [hpl] at hr
            rcases hinfo r hr with h | h
            · exact Or.inl (by rw [← hPi]; exact h)
            · exact Or.inr h
          | done st' s =>
            rw [hpl] at hinfo
            simp only [StepRes.state] at hinfo
            simp only [hpl] at hr
            rcases hinfo r hr with h | h
            · exact Or.inl (by rw [← hPi]; exact h)
            · exact Or.inr h

/-- Every entry of the final trace: a run that produced any trace at all passed
the rate-limit check and was not satisfied at entry; each entry is the
repository fetch, a page fetch at or after the start page (annotated with the
checkpoint's stale-info length), or a commit/merge call for a branch whose
name was not yet in `processed_branches` (annotated below `c` whenever the
checkpoint's stale-info length was below `c`). -/
theorem runD_trace_mem (env : Env) (c : Nat) (now : Int) (ck : Checkpoint) (fuel : Nat) :
    ∀ e ∈ ((get_stale_branches_info env c now ck fuel).1).trace,
      (env.rateLimitOk = true ∧
        ¬ (ck.stale_branches_info ≠ [] ∧ c ≤ ck.stale_branches_info.length)) ∧
      (e.1 = NetCall.repoFetch ∨
        (∃ p, start_page ck.pages_processed ≤ p ∧
            e = (NetCall.pageFetch p, ck.stale_branches_info.length)) ∨
        (∃ b : BranchInfo, ¬ b.name ∈ ck.processed_branches ∧
            (e.1 = NetCall.commitFetch b.name b.sha ∨ e.1 = NetCall.mergeSearch b.name) ∧
            (ck.stale_branches_info.length < c → e.2 < c))) := by
  intro e he
  cases hrl : env.rateLimitOk with
  | false =>
    rw [runD_eq_rate env c now ck fuel hrl] at he
    exact absurd he (by simp [ckState])
  | true =>
    by_cases hck : ck.stale_branches_info ≠ [] ∧ c ≤ ck.stale_branches_info.length
    · rw [runD_eq_entry env c now ck fuel hrl hck] at he
      exact absurd he (by simp [ckState])
    · refine ⟨⟨rfl, hck⟩, ?_⟩
      obtain ⟨hPp, hPi, ⟨ext1, hPtr, hPev⟩⟩ :=
        fetchPages_facts env c fuel (start_page ck.pages_processed) (initStateD ck) []
      have hInit : (initStateD ck).trace
          = [(NetCall.repoFetch, ck.stale_branches_info.length)] := rfl
      cases hfp : fetchPages env c fuel (start_page ck.pages_processed) (initStateD ck) [] with
      | fuelOut st =>
        rw [hfp] at hPtr
        simp only [PagingRes.state] at hPtr
        rw [runD_eq_fuelOut env c now ck fuel st hrl hck hfp] at he
        rw [hPtr, hInit] at he
        rcases List.mem_append.mp he with h | h
        · exact Or.inl (by rw [show e = (NetCall.repoFetch, ck.stale_branches_info.length)
            from by simpa using h])
        · obtain ⟨p, hple, hpe⟩ := hPev _ h
          exact Or.inr (Or.inl ⟨p, hple, hpe⟩)
      | exitWith st status =>
        rw [hfp] at hPtr
        simp only [PagingRes.state] at hPtr
        rw [runD_eq_exit env c now ck fuel st status hrl hck hfp] at he
        rw [hPtr, hInit] at he
        rcases List.mem_append.mp he with h | h
        · exact Or.inl (by rw [show e = (NetCall.repoFetch, ck.stale_branches_info.length)
            from by simpa using h])
        · obtain ⟨p, hple, hpe⟩ := hPev _ h
          exact Or.inr (Or.inl ⟨p, hple, hpe⟩)
      | ok st allb =>
        rw [hfp] at hPp hPi hPtr
        simp only [PagingRes.state] at hPp hPi hPtr
        have hmemSt : ∀ x, x ∈ st.trace →
            x.1 = NetCall.repoFetch ∨
            (∃ p, start_page ck.pages_processed ≤ p ∧
                x = (NetCall.pageFetch p, ck.stale_branches_info.length)) := by
          intro x hx
          rw [hPtr, hInit] at hx
          rcases List.mem_append.mp hx with h | h
          · exact Or.inl (by rw [show x = (NetCall.repoFetch, ck.stale_branches_info.length)
              from by simpa using h])
          · obtain ⟨p, hple, hpe⟩ := hPev _ h
            exact Or.inr ⟨p, hple, hpe⟩
        cases hct : chunks_total (branches_to_process st.processed allb).length with
        | none =>
          rw [runD_eq_ok env c now ck fuel st allb hrl hck hfp, hct] at he
          rcases hmemSt e he with h | h
          · exact Or.inl h
          · exact Or.inr (Or.inl h)
        | some ct =>
          rw [runD_eq_processing env c now ck fuel st allb ct hrl hck hfp hct] at he
          obtain ⟨⟨ext2, hLtr, hLev, hLbd⟩, -, -, -, -, -⟩ :=
            processList_facts env c now (default_branch_of env.repoResp)
              (branches_to_process st.processed allb) st
          have hfromProc : ∀ x, x ∈ ext2 →
              ∃ b : BranchInfo, ¬ b.name ∈ ck.processed_branches ∧
                (x.1 = NetCall.commitFetch b.name b.sha ∨ x.1 = NetCall.mergeSearch b.name) ∧
                (ck.stale_branches_info.length < c → x.2 < c) := by
            intro x hx
            obtain ⟨b, hb, hform⟩ := hLev x hx
            have hbn : ¬ b.name ∈ ck.processed_branches := by
              have := (List.mem_filter.mp hb).2
              rw [hPp] at this
              exact of_decide_eq_true this
            refine ⟨b, hbn, hform, ?_⟩
            intro hlt
            exact hLbd (by rw [hPi]; exact hlt) x hx
          cases hpl : processList env c now (default_branch_of env.repoResp) st
              (branches_to_process st.processed allb) with
          | next st' =>
            rw [hpl] at hLtr
            simp only [StepRes.state] at hLtr
            simp only [hpl] at he
            rw [hLtr] at he
            rcases List.mem_append.mp he with h | h
            · rcases hmemSt e h with h2 | h2
              · exact Or.inl h2
              · exact Or.inr (Or.inl h2)
            · exact Or.inr (Or.inr (hfromProc e h))
          | done st' s =>
            rw [hpl] at hLtr
            simp only [StepRes.state] at hLtr
            simp only [hpl] at he
            rw [hLtr] at he
            rcases List.mem_append.mp he with h | h
            · rcases hmemSt e h with h2 | h2
              · exact Or.inl h2
              · exact Or.inr (Or.inl h2)
            · exact Or.inr (Or.inr (hfromProc e h))

/-- When the run reaches the page loop at all, the first page it fetches is
the start page. -/
theorem runD_page_first (env : Env) (c : Nat) (now : Int) (ck : Checkpoint) (fuel : Nat)
    (h1 : env.rateLimitOk = true)
    (h2 : ¬ (ck.stale_branches_info ≠ [] ∧ c ≤ ck.stale_branches_info.length))
    (h3 : 1 ≤ fuel) :
    ∃ m, (NetCall.pageFetch (start_page ck.pages_processed), m) ∈
      ((get_stale_branches_info env c now ck fuel).1).trace := by
  have hfirst := fetchPages_first env c fuel (start_page ck.pages_processed) (initStateD ck) [] h3
  cases hfp : fetchPages env c fuel (start_page ck.pages_processed) (initStateD ck) [] with
  | fuelOut st =>
    rw [hfp] at hfirst
    simp only [PagingRes.state] at hfirst
    rw [runD_eq_fuelOut env c now ck fuel st h1 h2 hfp]
    exact ⟨_, hfirst⟩
  | exitWith st status =>
    rw [hfp] at hfirst
    simp only [PagingRes.state] at hfirst
    rw [runD_eq_exit env c now ck fuel st status h1 h2 hfp]
    exact ⟨_, hfirst⟩
  | ok st allb =>
    rw [hfp] at hfirst
    simp only [PagingRes.state] at hfirst
    cases hct : chunks_total (branches_to_process st.processed allb).length with
    | none =>
      rw [runD_eq_ok env c now ck fuel st allb h1 h2 hfp, hct]
      exact ⟨_, hfirst⟩
    | some ct =>
      rw [runD_eq_processing env c now ck fuel st allb ct h1 h2 hfp hct]
      obtain ⟨⟨ext2, hLtr, -, -⟩, -, -, -, -, -⟩ :=
        processList_facts env c now (default_branch_of env.repoResp)
          (branches_to_process st.processed allb) st
      cases hpl : processList env c now (default_branch_of env.repoResp) st
          (branches_to_process st.processed allb) with
      | next st' =>
        rw [hpl] at hLtr
        simp only [StepRes.state] at hLtr
        refine ⟨(initStateD ck).info.length, ?_⟩
        simp only [hpl]
        rw [hLtr]
        exact List.mem_append_left _ hfirst
      | done st' s =>
        rw [hpl] at hLtr
        simp only [StepRes.state] at hLtr
        refine ⟨(initStateD ck).info.length, ?_⟩
        simp only [hpl]
        rw [hLtr]
        exact List.mem_append_left _ hfirst

/-- With a positive expected count, any normal return whose record list has
reached the expected count carries the status "Completed". -/
theorem runD_exit_completed (env : Env) (c : Nat) (now : Int) (ck : Checkpoint) (fuel : Nat)
    (hc : 1 ≤ c) :
    ∀ info s, (get_stale_branches_info env c now ck fuel).2 = .ret (some info) s →
      c ≤ info.length → s = "Completed" := by
  intro info s hexit hlen
  cases hrl : env.rateLimitOk with
  | false =>
    rw [runD_eq_rate env c now ck fuel hrl] at hexit
    exact absurd hexit (by simp)
  | true =>
    by_cases hck : ck.stale_branches_info ≠ [] ∧ c ≤ ck.stale_branches_info.length
    · rw [runD_eq_entry env c now ck fuel hrl hck] at hexit
      simp only [DetailExit.ret.injEq, Option.some.injEq] at hexit
      exact hexit.2.symm
    · have hlt : ck.stale_branches_info.length < c := by
        by_cases hne : ck.stale_branches_info = []
        · rw [hne]; simpa using hc
        · have := not_and.mp hck hne
          omega
      obtain ⟨-, hPi, -⟩ :=
        fetchPages_facts env c fuel (start_page ck.pages_processed) (initStateD ck) []
      cases hfp : fetchPages env c fuel (start_page ck.pages_processed) (initStateD ck) [] with
      | fuelOut st =>
        rw [runD_eq_fuelOut env c now ck fuel st hrl hck hfp] at hexit
        exact absurd hexit (by simp)
      | exitWith st status =>
        rw [hfp] at hPi
        simp only [PagingRes.state, initStateD_info] at hPi
        rw [runD_eq_exit env c now ck fuel st status hrl hck hfp] at hexit
        simp only [DetailExit.ret.injEq, Option.some.injEq] at hexit
        exfalso
        rw [← hexit.1, hPi] at hlen
        omega
      | ok st allb =>
        rw [hfp] at hPi
        simp only [PagingRes.state] at hPi
        cases hct : chunks_total (branches_to_process st.processed allb).length with
        | none =>
          rw [runD_eq_ok env c now ck fuel st allb hrl hck hfp, hct] at hexit
          exact absurd hexit (by simp)
        | some ct =>
          rw [runD_eq_processing env c now ck fuel st allb ct hrl hck hfp hct] at hexit
          obtain ⟨-, -, -, hdone, -, -⟩ :=
            processList_facts env c now (default_branch_of env.repoResp)
              (branches_to_process st.processed allb) st
          cases hpl : processList env c now (default_branch_of env.repoResp) st
              (branches_to_process st.processed allb) with
          | next st' =>
            simp only [hpl] at hexit
            simp only [DetailExit.ret.injEq, Option.some.injEq] at hexit
            exact hexit.2.symm
          | done st' s0 =>
            simp only [hpl] at hexit
            simp only [DetailExit.ret.injEq, Option.some.injEq] at hexit
            rw [← hexit.2]
            exact hdone st' s0 hpl

/-! Count-mode run path equations and run-level facts. -/

theorem setTotal_processed (st : CState) (n : Nat) : (setTotal st n).processed = st.processed := by
  simp only [setTotal]
  split <;> rfl

theorem setTotal_trace (st : CState) (n : Nat) : (setTotal st n).trace = st.trace := by
  simp only [setTotal]
  split <;> rfl

theorem initStateC_processed (ck : Checkpoint) :
    (initStateC ck).processed = ck.processed_branches := rfl

theorem runC_eq_rate (env : Env) (now : Int) (ck : Checkpoint) (fuel : Nat)
    (h : env.rateLimitOk = false) :
    get_stale_branch_count_rest env now ck fuel = (ckStateC ck, .status "Rate Limit Error") := by
  unfold get_stale_branch_count_rest
  rw [h, if_pos rfl]

theorem runC_eq_fuelOut (env : Env) (now : Int) (ck : Checkpoint) (fuel : Nat)
    (st : CState) (h : env.rateLimitOk = true)
    (hfp : fetchPagesCount env fuel (start_page ck.pages_processed) (initStateC ck) []
      = .fuelOut st) :
    get_stale_branch_count_rest env now ck fuel = (st, .fuelOut) := by
  unfold get_stale_branch_count_rest
  rw [h, if_neg (by simp)]
  simp only [hfp]

theorem runC_eq_exit (env : Env) (now : Int) (ck : Checkpoint) (fuel : Nat)
    (st : CState) (status : String) (h : env.rateLimitOk = true)
    (hfp : fetchPagesCount env fuel (start_page ck.pages_processed) (initStateC ck) []
      = .exitWith st status) :
    get_stale_branch_count_rest env now ck fuel = (st, .status status) := by
  unfold get_stale_branch_count_rest
  rw [h, if_neg (by simp)]
  simp only [hfp]

theorem runC_eq_ok (env : Env) (now : Int) (ck : Checkpoint) (fuel : Nat)
    (st : CState) (allb : List BranchInfo) (h : env.rateLimitOk = true)
    (hfp : fetchPagesCount env fuel (start_page ck.pages_processed) (initStateC ck) []
      = .ok st allb) :
    get_stale_branch_count_rest env now ck fuel =
      match chunks_total (branches_to_process st.processed allb).length with
      | none => (setTotal st allb.length, .zeroDiv)
      | some ct =>
        let stt := processChunksCount env now (default_branch_of env.repoResp)
          (setTotal st allb.length)
          (sliceChunks (chunk_size (branches_to_process st.processed allb).length)
            ct (branches_to_process st.processed allb));
        (stt, .count stt.staleCount) := by
  unfold get_stale_branch_count_rest
  rw [h, if_neg (by simp)]
  simp only [hfp]

theorem runC_eq_processing (env : Env) (now : Int) (ck : Checkpoint) (fuel : Nat)
    (st : CState) (allb : List BranchInfo) (ct : Nat) (h : env.rateLimitOk = true)
    (hfp : fetchPagesCount env fuel (start_page ck.pages_processed) (initStateC ck) []
      = .ok st allb)
    (hct : chunks_total (branches_to_process st.processed allb).length = some ct) :
    get_stale_branch_count_rest env now ck fuel =
      (processListCount env now (default_branch_of env.repoResp) (setTotal st allb.length)
          (branches_to_process st.processed allb),
        .count (processListCount env now (default_branch_of env.repoResp)
          (setTotal st allb.length) (branches_to_process st.processed allb)).staleCount) := by
  rw [runC_eq_ok env now ck fuel st allb h hfp, hct]
  simp only [processChunksCount_slices env now (default_branch_of env.repoResp) _ ct hct]

/-- Every entry of the count-mode trace: the repository fetch, a page fetch at
or after the start page, or a commit fetch for a branch not yet processed. -/
theorem runC_trace_mem (env : Env) (now : Int) (ck : Checkpoint) (fuel : Nat) :
    ∀ e ∈ ((get_stale_branch_count_rest env now ck fuel).1).trace,
      e = NetCall.repoFetch ∨
      (∃ p, start_page ck.pages_processed ≤ p ∧ e = NetCall.pageFetch p) ∨
      (∃ b : BranchInfo, ¬ b.name ∈ ck.processed_branches ∧
          e = NetCall.commitFetch b.name b.sha) := by
  intro e he
  cases hrl : env.rateLimitOk with
  | false =>
    rw [runC_eq_rate env now ck fuel hrl] at he
    exact absurd he (by simp [ckStateC])
  | true =>
    obtain ⟨hPp, -, -, ⟨ext1, hPtr, hPev⟩⟩ :=
      fetchPagesCount_facts env fuel (start_page ck.pages_processed) (initStateC ck) []
    have hInit : (initStateC ck).trace = [NetCall.repoFetch] := rfl
    cases hfp : fetchPagesCount env fuel (start_page ck.pages_processed) (initStateC ck) [] with
    | fuelOut st =>
      rw [hfp] at hPtr
      simp only [PagingResC.state] at hPtr
      rw [runC_eq_fuelOut env now ck fuel st hrl hfp] at he
      rw [hPtr, hInit] at he
      rcases List.mem_append.mp he with h | h
      · exact Or.inl (by simpa using h)
      · obtain ⟨p, hple, hpe⟩ := hPev _ h
        exact Or.inr (Or.inl ⟨p, hple, hpe⟩)
    | exitWith st status =>
      rw [hfp] at hPtr
      simp only [PagingResC.state] at hPtr
      rw [runC_eq_exit env now ck fuel st status hrl hfp] at he
      rw [hPtr, hInit] at he
      rcases List.mem_append.mp he with h | h
      · exact Or.inl (by simpa using h)
      · obtain ⟨p, hple, hpe⟩ := hPev _ h
        exact Or.inr (Or.inl ⟨p, hple, hpe⟩)
    | ok st allb =>
      rw [hfp] at hPtr hPp
      simp only [PagingResC.state, initStateC_processed] at hPtr hPp
      have hmemSt : ∀ x, x ∈ st.trace →
          x = NetCall.repoFetch ∨
          (∃ p, start_page ck.pages_processed ≤ p ∧ x = NetCall.pageFetch p) := by
        intro x hx
        rw [hPtr, hInit] at hx
        rcases List.mem_append.mp hx with h | h
        · exact Or.inl (by simpa using h)
        · obtain ⟨p, hple, hpe⟩ := hPev _ h
          exact Or.inr ⟨p, hple, hpe⟩
      cases hct : chunks_total (branches_to_process st.processed allb).length with
      | none =>
        rw [runC_eq_ok env now ck fuel st allb hrl hfp, hct] at he
        rw [setTotal_trace] at he
        rcases hmemSt e he with h | h
        · exact Or.inl h
        · exact Or.inr (Or.inl h)
      | some ct =>
        rw [runC_eq_processing env now ck fuel st allb ct hrl hfp hct] at he
        obtain ⟨⟨ext2, hLtr, hLev⟩, -, -⟩ :=
          processListCount_facts env now (default_branch_of env.repoResp)
            (branches_to_process st.processed allb) (setTotal st allb.length)
        rw [setTotal_trace] at hLtr
        rw [hLtr] at he
        rcases List.mem_append.mp he with h | h
        · rcases hmemSt e h with h2 | h2
          · exact Or.inl h2
          · exact Or.inr (Or.inl h2)
        · right; right
          obtain ⟨b, hb, hbe⟩ := hLev e h
          have hbn : ¬ b.name ∈ ck.processed_branches := by
            have := (List.mem_filter.mp hb).2
            rw [hPp] at this
            exact of_decide_eq_true this
          exact ⟨b, hbn, hbe⟩

/-- When the count-mode run passes its rate-limit check, the first page it
fetches is the start page. -/
theorem runC_page_first (env : Env) (now : Int) (ck : Checkpoint) (fuel : Nat)
    (h1 : env.rateLimitOk = true) (h3 : 1 ≤ fuel) :
    NetCall.pageFetch (start_page ck.pages_processed) ∈
      ((get_stale_branch_count_rest env now ck fuel).1).trace := by
  have hfirst := fetchPagesCount_first env fuel (start_page ck.pages_processed)
    (initStateC ck) [] h3
  cases hfp : fetchPagesCount env fuel (start_page ck.pages_processed) (initStateC ck) [] with
  | fuelOut st =>
    rw [hfp] at hfirst
    simp only [PagingResC.state] at hfirst
    rw [runC_eq_fuelOut env now ck fuel st h1 hfp]
    exact hfirst
  | exitWith st status =>
    rw [hfp] at hfirst
    simp only [PagingResC.state] at hfirst
    rw [runC_eq_exit env now ck fuel st status h1 hfp]
    exact hfirst
  | ok st allb =>
    rw [hfp] at hfirst
    simp only [PagingResC.state] at hfirst
    cases hct : chunks_total (branches_to_process st.processed allb).length with
    | none =>
      rw [runC_eq_ok env now ck fuel st allb h1 hfp, hct]
      rw [show ((setTotal st allb.length, CountExit.zeroDiv) : CState × CountExit).1.trace
        = st.trace from setTotal_trace st allb.length]
      exact hfirst
    | some ct =>
      rw [runC_eq_processing env now ck fuel st allb ct h1 hfp hct]
      obtain ⟨⟨ext2, hLtr, -⟩, -, -⟩ :=
        processListCount_facts env now (default_branch_of env.repoResp)
          (branches_to_process st.processed allb) (setTotal st allb.length)
      rw [setTotal_trace] at hLtr
      simp only [hLtr]
      exact List.mem_append_left _ hfirst

/-! Concrete environments and states used to witness the claims. -/

/-- The empty in-memory detail-mode state. -/
def stEmpty : DState := { processed := [], info := [], pagesProcessed := 0, trace := [] }

/-- The empty in-memory count-mode state. -/
def stcEmpty : CState :=
  { processed := [], staleCount := 0, pagesProcessed := 0, totalBranches := none, trace := [] }

/-- A fresh checkpoint entry (all keys at their defaults). -/
def ckEmpty : Checkpoint :=
  { processed_branches := [], stale_branches_info := [], stale_count := 0,
    pages_processed := 0, total_branches := none }

/-- A healthy remote with one old commit behind every sha. -/
def envC1 : Env :=
  { rateLimitOk := true, repoResp := some (200, some "main"),
    pageResp := fun _ => .resp 200 [], commitResp := fun _ => .resp 200 (some 1),
    mergeResolve := fun _ => "main" }

/-- Claim C1: for every branch with a successfully parsed tip-commit timestamp
t, the classifier marks the branch stale iff current_time - t > 7,776,000
seconds (90*24*3600); a branch whose age is exactly 7,776,000 seconds is not
stale; this holds in detail mode (a record enters stale_branches_info) and in
count mode (stale_count is incremented). -/
theorem claim_C1_staleness_threshold (env : Env) (c : Nat) (now t : Int) (db : String)
    (st : DState) (stc : CState) (b : BranchInfo)
    (hn : ¬ b.name = db) (hcr : env.commitResp b.sha = .resp 200 (some t)) :
    stale_threshold = (7776000 : Int) ∧
    ((7776000 : Int) < now - t →
      ((processBranchDetail env c now db st b).state).info
        = st.info ++ [⟨b.name, t, env.mergeResolve b.name⟩]) ∧
    (¬ (7776000 : Int) < now - t →
      ((processBranchDetail env c now db st b).state).info = st.info) ∧
    (now - t = (7776000 : Int) →
      ((processBranchDetail env c now db st b).state).info = st.info) ∧
    ((processBranchCount env now db stc b).staleCount
      = stc.staleCount + if (7776000 : Int) < now - t then 1 else 0) := by
  have hth : stale_threshold = (7776000 : Int) := by decide
  have hstale : stale_threshold < now - t →
      ((processBranchDetail env c now db st b).state).info
        = st.info ++ [⟨b.name, t, env.mergeResolve b.name⟩] := by
    intro h
    simp only [processBranchDetail, if_neg hn, hcr]
    simp only [ne_eq, not_true_eq_false, if_false, if_pos h]
    split <;> rfl
  have hnot : ¬ stale_threshold < now - t →
      ((processBranchDetail env c now db st b).state).info = st.info := by
    intro h
    simp only [processBranchDetail, if_neg hn, hcr]
    simp only [ne_eq, not_true_eq_false, if_false, if_neg h]
    rfl
  have hcount : (processBranchCount env now db stc b).staleCount
      = stc.staleCount + if stale_threshold < now - t then 1 else 0 := by
    by_cases h : stale_threshold < now - t
    · simp only [processBranchCount, if_neg hn, hcr]
      simp only [ne_eq, not_true_eq_false, if_false, if_pos h]
    · simp only [processBranchCount, if_neg hn, hcr]
      simp only [ne_eq, not_true_eq_false, if_false, if_neg h]
      simp
  rw [hth] at hstale hnot hcount
  exact ⟨hth, hstale, hnot, fun heq => hnot (by omega), hcount⟩

/-- Witness for C1: in a concrete environment a branch 100-odd days old is
recorded stale with its parsed timestamp and resolved merge target. -/
theorem claim_C1_witness :
    ((processBranchDetail envC1 3 8000000 "main" stEmpty ⟨"feat", "s1"⟩).state).info
      = [⟨"feat", 1, "main"⟩] :=
  (claim_C1_staleness_threshold envC1 3 8000000 1 "main" stEmpty stcEmpty ⟨"feat", "s1"⟩
    (by decide) rfl).2.1 (by decide)

/-- Claim C5: a branch whose name equals the repository's default branch is
skipped with no further lookups (result state differs only in the
processed-append, so no trace entry and no record), in both modes; and at run
level no record for the default branch ever enters stale_branches_info beyond
what the checkpoint already held. -/
theorem claim_C5_default_branch_skip :
    (∀ (env : Env) (c : Nat) (now : Int) (db : String) (st : DState) (b : BranchInfo),
      b.name = db →
      processBranchDetail env c now db st b
        = .next { st with processed := st.processed ++ [b.name] }) ∧
    (∀ (env : Env) (now : Int) (db : String) (stc : CState) (b : BranchInfo),
      b.name = db →
      processBranchCount env now db stc b
        = { stc with processed := stc.processed ++ [b.name] }) ∧
    (∀ (env : Env) (c : Nat) (now : Int) (ck : Checkpoint) (fuel : Nat) (r : StaleRecord),
      r ∈ ((get_stale_branches_info env c now ck fuel).1).info →
      r ∈ ck.stale_branches_info ∨ ¬ r.branch_name = default_branch_of env.repoResp) := by
  refine ⟨?_, ?_, ?_⟩
  · intro env c now db st b h
    simp [processBranchDetail, h]
  · intro env now db stc b h
    simp [processBranchCount, h]
  · exact runD_info_facts

/-- A remote whose only listed branch is stale. -/
def envC5 : Env :=
  { rateLimitOk := true, repoResp := some (200, some "main"),
    pageResp := fun p => if p = 1 then .resp 200 [⟨"dev", "s1"⟩] else .resp 200 [],
    commitResp := fun _ => .resp 200 (some 1), mergeResolve := fun _ => "main" }

/-- Witness for C5: the default-branch skip on a concrete state, and a record
produced by a concrete run is shown not to name the default branch. -/
theorem claim_C5_witness :
    (processBranchDetail envC1 3 0 "main" stEmpty ⟨"main", "s0"⟩
        = .next { stEmpty with processed := ["main"] }) ∧
    ((⟨"dev", 1, "main"⟩ : StaleRecord) ∈ ckEmpty.stale_branches_info ∨
      ¬ ("dev" : String) = default_branch_of envC5.repoResp) :=
  ⟨claim_C5_default_branch_skip.1 envC1 3 0 "main" stEmpty ⟨"main", "s0"⟩ rfl,
    claim_C5_default_branch_skip.2.2 envC5 2 8000000 ckEmpty 5 ⟨"dev", 1, "main"⟩ (by decide)⟩

/-- Claim C7: a branch whose commit payload fails to parse is handled inside
the per-branch try/except: it is still appended to processed_branches, no
record is added, the only network call is its commit fetch, and the loop
continues with the remaining branches. -/
theorem claim_C7_parse_error_contained :
    (∀ (env : Env) (c : Nat) (now : Int) (db : String) (st : DState) (b : BranchInfo),
      ¬ b.name = db → env.commitResp b.sha = .resp 200 none →
      processBranchDetail env c now db st b
        = .next { st with
            processed := st.processed ++ [b.name],
            trace := st.trace ++ [(.commitFetch b.name b.sha, st.info.length)] }) ∧
    (∀ (env : Env) (now : Int) (db : String) (stc : CState) (b : BranchInfo),
      ¬ b.name = db → env.commitResp b.sha = .resp 200 none →
      processBranchCount env now db stc b
        = { stc with
            processed := stc.processed ++ [b.name],
            trace := stc.trace ++ [.commitFetch b.name b.sha] }) ∧
    (∀ (env : Env) (c : Nat) (now : Int) (db : String) (st : DState) (b : BranchInfo)
        (rest : List BranchInfo),
      ¬ b.name = db → env.commitResp b.sha = .resp 200 none →
      processList env c now db st (b :: rest)
        = processList env c now db
            { st with
              processed := st.processed ++ [b.name],
              trace := st.trace ++ [(.commitFetch b.name b.sha, st.info.length)] } rest) := by
  have hstep : ∀ (env : Env) (c : Nat) (now : Int) (db : String) (st : DState) (b : BranchInfo),
      ¬ b.name = db → env.commitResp b.sha = .resp 200 none →
      processBranchDetail env c now db st b
        = .next { st with
            processed := st.processed ++ [b.name],
            trace := st.trace ++ [(.commitFetch b.name b.sha, st.info.length)] } := by
    intro env c now db st b hn hcr
    simp only [processBranchDetail, if_neg hn, hcr]
    simp only [ne_eq, not_true_eq_false, if_false]
  refine ⟨hstep, ?_, ?_⟩
  · intro env now db stc b hn hcr
    simp only [processBranchCount, if_neg hn, hcr]
    simp only [ne_eq, not_true_eq_false, if_false]
  · intro env c now db st b rest hn hcr
    simp only [processList, hstep env c now db st b hn hcr]

/-- A remote whose commit payloads all have a malformed committer date. -/
def envC7 : Env :=
  { rateLimitOk := true, repoResp := some (200, some "main"),
    pageResp := fun p => if p = 1 then .resp 200 [⟨"bad", "sB"⟩] else .resp 200 [],
    commitResp := fun _ => .resp 200 none, mergeResolve := fun _ => "Unknown" }

/-- Witness for C7 at a concrete parse-failure branch. -/
theorem claim_C7_witness :
    processBranchDetail envC7 3 0 "main" stEmpty ⟨"bad", "sB"⟩
      = .next { stEmpty with
          processed := ["bad"], trace := [(.commitFetch "bad" "sB", 0)] } :=
  claim_C7_parse_error_contained.1 envC7 3 0 "main" stEmpty ⟨"bad", "sB"⟩ (by decide) rfl

/-- Claim C3: resuming from a checkpoint with pages_processed = k > 0, every
page fetched has number at least k+1 and the first page fetched is exactly
k+1; and no branch already named in processed_branches gets any per-branch
network call (commit fetch or merge search), in either mode. -/
theorem claim_C3_resume_correctness (env : Env) (c : Nat) (now : Int) (ck : Checkpoint)
    (fuel : Nat) (k : Nat) (hk : ck.pages_processed = k) (hk0 : 0 < k) :
    (∀ p m, (NetCall.pageFetch p, m) ∈ ((get_stale_branches_info env c now ck fuel).1).trace →
        k + 1 ≤ p) ∧
    ((∃ p m, (NetCall.pageFetch p, m) ∈ ((get_stale_branches_info env c now ck fuel).1).trace) →
        ∃ m, (NetCall.pageFetch (k + 1), m) ∈
          ((get_stale_branches_info env c now ck fuel).1).trace) ∧
    (∀ nm sha m, (NetCall.commitFetch nm sha, m) ∈
          ((get_stale_branches_info env c now ck fuel).1).trace →
        ¬ nm ∈ ck.processed_branches) ∧
    (∀ nm m, (NetCall.mergeSearch nm, m) ∈
          ((get_stale_branches_info env c now ck fuel).1).trace →
        ¬ nm ∈ ck.processed_branches) ∧
    (∀ p, NetCall.pageFetch p ∈ ((get_stale_branch_count_rest env now ck fuel).1).trace →
        k + 1 ≤ p) ∧
    ((∃ p, NetCall.pageFetch p ∈ ((get_stale_branch_count_rest env now ck fuel).1).trace) →
        NetCall.pageFetch (k + 1) ∈ ((get_stale_branch_count_rest env now ck fuel).1).trace) ∧
    (∀ nm sha, NetCall.commitFetch nm sha ∈
          ((get_stale_branch_count_rest env now ck fuel).1).trace →
        ¬ nm ∈ ck.processed_branches) := by
  have hsp : start_page ck.pages_processed = k + 1 := by
    rw [hk]
    simp [start_page, hk0]
  refine ⟨?_, ?_, ?_, ?_, ?_, ?_, ?_⟩
  · intro p m hm
    obtain ⟨-, hdis⟩ := runD_trace_mem env c now ck fuel _ hm
    rcases hdis with h | ⟨p', hple, hpe⟩ | ⟨b, -, hforms, -⟩
    · exact absurd h (by simp)
    · simp only [Prod.mk.injEq, NetCall.pageFetch.injEq] at hpe
      rw [hsp] at hple
      omega
    · rcases hforms with h | h <;> exact absurd h (by simp)
  · rintro ⟨p, m, hm⟩
    obtain ⟨⟨hrl, hck⟩, -⟩ := runD_trace_mem env c now ck fuel _ hm
    cases fuel with
    | zero =>
      exfalso
      have h0 : fetchPages env c 0 (start_page ck.pages_processed) (initStateD ck) []
          = .fuelOut (initStateD ck) := rfl
      rw [runD_eq_fuelOut env c now ck 0 (initStateD ck) hrl hck h0] at hm
      simp [initStateD, ckState] at hm
    | succ n =>
      rw [← hsp]
      exact runD_page_first env c now ck (n + 1) hrl hck (by omega)
  · intro nm sha m hm
    obtain ⟨-, hdis⟩ := runD_trace_mem env c now ck fuel _ hm
    rcases hdis with h | ⟨p', -, hpe⟩ | ⟨b, hb, hforms, -⟩
    · exact absurd h (by simp)
    · exact absurd (congrArg Prod.fst hpe) (by simp)
    · rcases hforms with h | h
      · simp only [NetCall.commitFetch.injEq] at h
        rw [h.1]
        exact hb
      · exact absurd h (by simp)
  · intro nm m hm
    obtain ⟨-, hdis⟩ := runD_trace_mem env c now ck fuel _ hm
    rcases hdis with h | ⟨p', -, hpe⟩ | ⟨b, hb, hforms, -⟩
    · exact absurd h (by simp)
    · exact absurd (congrArg Prod.fst hpe) (by simp)
    · rcases hforms with h | h
      · exact absurd h (by simp)
      · simp only [NetCall.mergeSearch.injEq] at h
        rw [h]
        exact hb
  · intro p hm
    rcases runC_trace_mem env now ck fuel _ hm with h | ⟨p', hple, hpe⟩ | ⟨b, -, hbe⟩
    · exact absurd h (by simp)
    · simp only [NetCall.pageFetch.injEq] at hpe
      rw [hsp] at hple
      omega
    · exact absurd hbe (by simp)
  · rintro ⟨p, hm⟩
    cases hrl : env.rateLimitOk with
    | false =>
      exfalso
      rw [runC_eq_rate env now ck fuel hrl] at hm
      exact absurd hm (by simp [ckStateC])
    | true =>
      cases fuel with
      | zero =>
        exfalso
        have h0 : fetchPagesCount env 0 (start_page ck.pages_processed) (initStateC ck) []
            = .fuelOut (initStateC ck) := rfl
        rw [runC_eq_fuelOut env now ck 0 (initStateC ck) hrl h0] at hm
        simp [initStateC, ckStateC] at hm
      | succ n =>
        rw [← hsp]
        exact runC_page_first env now ck (n + 1) hrl (by omega)
  · intro nm sha hm
    rcases runC_trace_mem env now ck fuel _ hm with h | ⟨p', -, hpe⟩ | ⟨b, hb, hbe⟩
    · exact absurd h (by simp)
    · exact absurd hpe (by simp)
    · simp only [NetCall.commitFetch.injEq] at hbe
      rw [hbe.1]
      exact hb

/-- A resumable remote: the checkpoint has two pages done and branch "seen"
already classified; page 3 holds "seen" and a fresh branch "new". -/
def envC3 : Env :=
  { rateLimitOk := true, repoResp := some (200, some "main"),
    pageResp := fun p => if p = 3 then .resp 200 [⟨"seen", "sX"⟩, ⟨"new", "sY"⟩]
      else .resp 200 [],
    commitResp := fun _ => .resp 200 (some 1), mergeResolve := fun _ => "main" }

/-- The checkpoint entry for the C3 witness. -/
def ckC3 : Checkpoint :=
  { processed_branches := ["seen"], stale_branches_info := [], stale_count := 0,
    pages_processed := 2, total_branches := none }

/-- Witness for C3: in the concrete resumed run the fresh branch "new" does
get a commit fetch, and the theorem then certifies it was not yet processed. -/
theorem claim_C3_witness : ¬ ("new" : String) ∈ ckC3.processed_branches :=
  (claim_C3_resume_correctness envC3 5 8000000 ckC3 5 2 rfl (by decide)).2.2.1
    "new" "sY" 0 (by decide)

/-- Claim C4 as amended: provided the expected stale count is at least 1,
every branch-level network call (page fetch, commit fetch, merge search) of a
detail-mode run is made at a moment when len(stale_branches_info) is still
below the expected count -- equivalently, once the count is reached no further
branch-level call occurs -- and any return whose record list has reached the
expected count carries status "Completed". -/
theorem claim_C4_early_exit_amended (env : Env) (c : Nat) (now : Int) (ck : Checkpoint)
    (fuel : Nat) (hc : 1 ≤ c) :
    (∀ e m, (e, m) ∈ ((get_stale_branches_info env c now ck fuel).1).trace →
        e.branchLevel = true → m < c) ∧
    (∀ info s, (get_stale_branches_info env c now ck fuel).2 = .ret (some info) s →
        c ≤ info.length → s = "Completed") := by
  constructor
  · intro e m hm hbl
    obtain ⟨⟨hrl, hck⟩, hdis⟩ := runD_trace_mem env c now ck fuel _ hm
    have hlt : ck.stale_branches_info.length < c := by
      by_cases hne : ck.stale_branches_info = []
      · rw [hne]; simpa using hc
      · have := not_and.mp hck hne
        omega
    rcases hdis with h | ⟨p, -, hpe⟩ | ⟨b, -, -, hbd⟩
    · exfalso
      simp only at h
      rw [h] at hbl
      exact absurd hbl (by simp [NetCall.branchLevel])
    · simp only [Prod.mk.injEq] at hpe
      rw [hpe.2]
      exact hlt
    · exact hbd hlt
  · exact runD_exit_completed env c now ck fuel hc

/-- A remote with one non-stale branch, used to refute C4 as stated at
expected count 0. -/
def envC4 : Env :=
  { rateLimitOk := true, repoResp := some (200, some "main"),
    pageResp := fun p => if p = 1 then .resp 200 [⟨"feat", "s1"⟩] else .resp 200 [],
    commitResp := fun _ => .resp 200 (some 7999999), mergeResolve := fun _ => "Unknown" }

/-- Counterexample to C4 as stated: with repo_stale_count = 0 the run is at a
point where len(stale_branches_info) = 0 >= 0 = expected count from the very
start, yet it still issues a branch-level commit fetch (annotated with length
0), because the per-branch early-exit test only fires after a new stale record
is appended and the entry test requires a nonempty record list. -/
theorem claim_C4_counterexample :
    (NetCall.commitFetch "feat" "s1", 0)
      ∈ ((get_stale_branches_info envC4 0 8000000 ckEmpty 5).1).trace ∧
    NetCall.branchLevel (NetCall.commitFetch "feat" "s1") = true ∧
    (0 : Nat) ≤ 0 := by
  refine ⟨by decide, by decide, by decide⟩

/-- Witness for the amended C4 on a concrete run with expected count 1. -/
theorem claim_C4_witness : (0 : Nat) < 1 :=
  (claim_C4_early_exit_amended envC4 1 8000000 ckEmpty 5 (by decide)).1
    (NetCall.commitFetch "feat" "s1") 0 (by decide) (by decide)

/-- A remote whose only branch's commit fetch always fails at transport
level (the executor returns None). -/
def envC2 : Env :=
  { rateLimitOk := true, repoResp := some (200, some "main"),
    pageResp := fun p => if p = 1 then .resp 200 [⟨"feat", "s1"⟩] else .resp 200 [],
    commitResp := fun _ => .conn, mergeResolve := fun _ => "Unknown" }

/-- Counterexample to C2 as stated: branch "feat" is evaluated (its commit
fetch is in the trace) and the run finishes normally, yet processed_branches
stays empty -- a branch whose commit fetch fails is skipped without being
appended. -/
theorem claim_C2_counterexample :
    ((get_stale_branches_info envC2 5 8000000 ckEmpty 5).1).processed = [] ∧
    (NetCall.commitFetch "feat" "s1", 0)
      ∈ ((get_stale_branches_info envC2 5 8000000 ckEmpty 5).1).trace ∧
    (get_stale_branches_info envC2 5 8000000 ckEmpty 5).2
      = .ret (some []) "Completed" := by
  exact ⟨by decide, by decide, by decide⟩

/-- Claim C2 as amended: a branch is appended to processed_branches exactly
once after its evaluation completes, except that a branch whose commit fetch
returns None or a non-200 status is skipped without being appended, and that
in detail mode the stale branch whose record reaches the expected count is not
appended (the function returns first); over a whole branch loop the appended
names form a duplicate-free (given distinct inputs) sublist of the evaluated
names. -/
theorem claim_C2_processed_once_amended :
    (∀ (env : Env) (c : Nat) (now : Int) (db : String) (st : DState) (b : BranchInfo),
      b.name = db →
      ((processBranchDetail env c now db st b).state).processed
        = st.processed ++ [b.name]) ∧
    (∀ (env : Env) (c : Nat) (now : Int) (db : String) (st : DState) (b : BranchInfo)
        (pd : Option Int) (st' : DState),
      ¬ b.name = db → env.commitResp b.sha = .resp 200 pd →
      processBranchDetail env c now db st b = .next st' →
      st'.processed = st.processed ++ [b.name]) ∧
    (∀ (env : Env) (c : Nat) (now : Int) (db : String) (st : DState) (b : BranchInfo),
      ¬ b.name = db → env.commitResp b.sha = .conn →
      ((processBranchDetail env c now db st b).state).processed = st.processed) ∧
    (∀ (env : Env) (c : Nat) (now : Int) (db : String) (st : DState) (b : BranchInfo)
        (s : Nat) (pd : Option Int),
      ¬ b.name = db → env.commitResp b.sha = .resp s pd → s ≠ 200 →
      ((processBranchDetail env c now db st b).state).processed = st.processed) ∧
    (∀ (env : Env) (c : Nat) (now : Int) (db : String) (st : DState) (b : BranchInfo)
        (st' : DState) (s : String),
      processBranchDetail env c now db st b = .done st' s →
      st'.processed = st.processed) ∧
    (∀ (env : Env) (c : Nat) (now : Int) (db : String) (l : List BranchInfo) (st : DState),
      ∃ delta, ((processList env c now db st l).state).processed = st.processed ++ delta ∧
        delta.Sublist (l.map BranchInfo.name) ∧
        ((l.map BranchInfo.name).Nodup → delta.Nodup)) ∧
    (∀ (env : Env) (now : Int) (db : String) (stc : CState) (b : BranchInfo),
      ¬ b.name = db → env.commitResp b.sha = .conn →
      (processBranchCount env now db stc b).processed = stc.processed) ∧
    (∀ (env : Env) (now : Int) (db : String) (stc : CState) (b : BranchInfo)
        (pd : Option Int),
      ¬ b.name = db → env.commitResp b.sha = .resp 200 pd →
      (processBranchCount env now db stc b).processed = stc.processed ++ [b.name]) := by
  refine ⟨?_, ?_, ?_, ?_, ?_, ?_, ?_, ?_⟩
  · intro env c now db st b h
    simp [processBranchDetail, h, StepRes.state]
  · intro env c now db st b pd st' hn hcr hstep
    cases pd with
    | none =>
      simp only [processBranchDetail, if_neg hn, hcr, ne_eq, not_true_eq_false, if_false,
        StepRes.next.injEq] at hstep
      rw [← hstep]
    | some t =>
      simp only [processBranchDetail, if_neg hn, hcr, ne_eq, not_true_eq_false,
        if_false] at hstep
      split at hstep
      · split at hstep
        · exact absurd hstep (by simp)
        · simp only [StepRes.next.injEq] at hstep
          rw [← hstep]
      · simp only [StepRes.next.injEq] at hstep
        rw [← hstep]
  · intro env c now db st b hn hcr
    simp only [processBranchDetail, if_neg hn, hcr, StepRes.state]
  · intro env c now db st b s pd hn hcr hs
    simp only [processBranchDetail, if_neg hn, hcr]
    rw [if_pos hs]
    rfl
  · intro env c now db st b st' s hstep
    simp only [processBranchDetail] at hstep
    split at hstep
    · exact absurd hstep (by simp)
    · split at hstep
      · exact absurd hstep (by simp)
      · split at hstep
        · exact absurd hstep (by simp)
        · split at hstep
          · exact absurd hstep (by simp)
          · split at hstep
            · split at hstep
              · simp only [StepRes.done.injEq] at hstep
                rw [← hstep.1]
              · exact absurd hstep (by simp)
            · exact absurd hstep (by simp)
  · intro env c now db l st
    obtain ⟨-, ⟨delta, hp, hs⟩, -, -, -, -⟩ := processList_facts env c now db l st
    exact ⟨delta, hp, hs, fun hnd => hnd.sublist hs⟩
  · intro env now db stc b hn hcr
    simp only [processBranchCount, if_neg hn, hcr]
  · intro env now db stc b pd hn hcr
    cases pd with
    | none =>
      simp only [processBranchCount, if_neg hn, hcr, ne_eq, not_true_eq_false, if_false]
    | some t =>
      simp only [processBranchCount, if_neg hn, hcr, ne_eq, not_true_eq_false, if_false]
      split <;> rfl

/-- Witness for the amended C2 on concrete inputs: the connection-failure skip
leaves processed_branches unchanged. -/
theorem claim_C2_witness :
    ((processBranchDetail envC2 5 8000000 "main" stEmpty ⟨"feat", "s1"⟩).state).processed
      = [] :=
  claim_C2_processed_once_amended.2.2.1 envC2 5 8000000 "main" stEmpty ⟨"feat", "s1"⟩
    (by decide) rfl

/-- Claim C9: whenever the list of branches still to process is empty after
enumeration (the filtered list is empty, for instance because the first
fetched page of a resumed checkpoint is empty, or every enumerated name is
already processed), chunk_size is min(50, 0) = 0 and the chunk-count division
divides by zero, so either function raises ZeroDivisionError instead of
returning a result. -/
theorem claim_C9_zero_division :
    (chunk_size 0 = 0) ∧
    (chunks_total 0 = none) ∧
    (∀ (env : Env) (c : Nat) (now : Int) (ck : Checkpoint) (fuel : Nat)
        (st : DState) (acc : List BranchInfo),
      env.rateLimitOk = true →
      ¬ (ck.stale_branches_info ≠ [] ∧ c ≤ ck.stale_branches_info.length) →
      fetchPages env c fuel (start_page ck.pages_processed) (initStateD ck) [] = .ok st acc →
      branches_to_process st.processed acc = [] →
      (get_stale_branches_info env c now ck fuel).2 = .zeroDiv) ∧
    (∀ (env : Env) (now : Int) (ck : Checkpoint) (fuel : Nat)
        (st : CState) (acc : List BranchInfo),
      env.rateLimitOk = true →
      fetchPagesCount env fuel (start_page ck.pages_processed) (initStateC ck) [] = .ok st acc →
      branches_to_process st.processed acc = [] →
      (get_stale_branch_count_rest env now ck fuel).2 = .zeroDiv) := by
  refine ⟨rfl, rfl, ?_, ?_⟩
  · intro env c now ck fuel st acc hrl hck hfp hbtp
    rw [runD_eq_ok env c now ck fuel st acc hrl hck hfp, hbtp]
    rfl
  · intro env now ck fuel st acc hrl hfp hbtp
    rw [runC_eq_ok env now ck fuel st acc hrl hfp, hbtp]
    rfl

/-- A remote whose branch listing is empty from the very first page. -/
def envC9 : Env :=
  { rateLimitOk := true, repoResp := some (200, some "main"),
    pageResp := fun _ => .resp 200 [], commitResp := fun _ => .conn,
    mergeResolve := fun _ => "Unknown" }

/-- Witness for C9: both runs on the empty-listing remote end in the
ZeroDivisionError. -/
theorem claim_C9_witness :
    (get_stale_branches_info envC9 3 0 ckEmpty 5).2 = DetailExit.zeroDiv ∧
    (get_stale_branch_count_rest envC9 0 ckEmpty 5).2 = CountExit.zeroDiv :=
  ⟨claim_C9_zero_division.2.2.1 envC9 3 0 ckEmpty 5
      ⟨[], [], 0, [(.repoFetch, 0), (.pageFetch 1, 0)]⟩ [] rfl (by decide) (by decide) rfl,
    claim_C9_zero_division.2.2.2 envC9 0 ckEmpty 5
      ⟨[], 0, 0, none, [.repoFetch, .pageFetch 1]⟩ [] rfl (by decide) rfl⟩

/-- A failing repository-metadata fetch over a repository whose actual default
branch is "master": "master" is old (stale), and a branch literally named
"main" is also listed. -/
def envC10 : Env :=
  { rateLimitOk := true, repoResp := none,
    pageResp := fun p => if p = 1 then .resp 200 [⟨"main", "s0"⟩, ⟨"master", "s1"⟩]
      else .resp 200 [],
    commitResp := fun sha => if sha = "s1" then .resp 200 (some 1)
      else .resp 200 (some 7999999),
    mergeResolve := fun _ => "Unknown" }

/-- Claim C10: when the repository metadata fetch fails (executor None or a
non-200 status), the classifiers fall back to default_branch = "main" and
continue: the run still reaches the page loop, a branch literally named
"main" is skipped as the default branch, and (concretely) the actual default
branch, having a different name, is classified stale. -/
theorem claim_C10_repo_fetch_fallback :
    (default_branch_of none = "main") ∧
    (∀ (s : Nat) (d : Option String), ¬ s = 200 →
      default_branch_of (some (s, d)) = "main") ∧
    (∀ (env : Env) (c : Nat) (now : Int) (st : DState) (b : BranchInfo),
      env.repoResp = none → b.name = "main" →
      processBranchDetail env c now (default_branch_of env.repoResp) st b
        = .next { st with processed := st.processed ++ [b.name] }) ∧
    (∀ (env : Env) (c : Nat) (now : Int) (ck : Checkpoint) (fuel : Nat),
      env.repoResp = none → env.rateLimitOk = true →
      ¬ (ck.stale_branches_info ≠ [] ∧ c ≤ ck.stale_branches_info.length) → 1 ≤ fuel →
      ∃ m, (NetCall.pageFetch (start_page ck.pages_processed), m) ∈
        ((get_stale_branches_info env c now ck fuel).1).trace) ∧
    (((get_stale_branches_info envC10 2 8000000 ckEmpty 5).1).info
      = [⟨"master", 1, "Unknown"⟩]) ∧
    (((get_stale_branches_info envC10 2 8000000 ckEmpty 5).1).processed
      = ["main", "master"]) := by
  refine ⟨rfl, ?_, ?_, ?_, by decide, by decide⟩
  · intro s d hs
    simp [default_branch_of, hs]
  · intro env c now st b hrep hb
    rw [hrep]
    simp [processBranchDetail, hb, default_branch_of]
  · intro env c now ck fuel hrep hrl hck hfuel
    exact runD_page_first env c now ck fuel hrl hck hfuel

/-- Witness for C10: the fallback on a concrete failed metadata response. -/
theorem claim_C10_witness : default_branch_of (some (404, some "master")) = "main" :=
  claim_C10_repo_fetch_fallback.2.1 404 (some "master") (by decide)

/-- Claim C8 as amended: a transport failure on the attempt with retry
counter k < MAX_RETRIES waits exactly 5 * 2^k seconds and retries; the
executor returns None only after MAX_RETRIES + 1 failed attempts (the initial
attempt plus MAX_RETRIES retries), having waited 5, 10, 20, 40, 80 seconds;
if the attempt with counter MAX_RETRIES succeeds after MAX_RETRIES failures,
its response is returned instead of None; and the caller treats a None commit
response by skipping that branch and continuing. -/
theorem claim_C8_retry_backoff :
    (∀ (oracle : Nat → AttemptRes) (k : Nat), oracle k = .fail → k < MAX_RETRIES →
      safe_api_call oracle k
        = ((safe_api_call oracle (k + 1)).1,
            5 * 2 ^ k :: (safe_api_call oracle (k + 1)).2)) ∧
    (∀ oracle : Nat → AttemptRes, (∀ j, j ≤ MAX_RETRIES → oracle j = .fail) →
      safe_api_call oracle 0 = (none, [5, 10, 20, 40, 80])) ∧
    (∀ (oracle : Nat → AttemptRes) (r : Nat),
      (∀ j, j < MAX_RETRIES → oracle j = .fail) → oracle MAX_RETRIES = .success r →
      safe_api_call oracle 0 = (some r, [5, 10, 20, 40, 80])) ∧
    (∀ (env : Env) (c : Nat) (now : Int) (db : String) (st : DState) (b : BranchInfo),
      ¬ b.name = db → env.commitResp b.sha = .conn →
      processBranchDetail env c now db st b
        = .next { st with
            trace := st.trace ++ [(.commitFetch b.name b.sha, st.info.length)] }) := by
  refine ⟨?_, ?_, ?_, ?_⟩
  · intro oracle k hfail hk
    rw [safe_api_call, hfail]
    simp only [dif_pos hk]
  · intro oracle h
    have e5 : safe_api_call oracle 5 = (none, []) := by
      rw [safe_api_call, h 5 (by norm_num [MAX_RETRIES])]
      rfl
    have e4 : safe_api_call oracle 4 = (none, [80]) := by
      rw [safe_api_call, h 4 (by norm_num [MAX_RETRIES])]
      norm_num [MAX_RETRIES, e5]
    have e3 : safe_api_call oracle 3 = (none, [40, 80]) := by
      rw [safe_api_call, h 3 (by norm_num [MAX_RETRIES])]
      norm_num [MAX_RETRIES, e4]
    have e2 : safe_api_call oracle 2 = (none, [20, 40, 80]) := by
      rw [safe_api_call, h 2 (by norm_num [MAX_RETRIES])]
      norm_num [MAX_RETRIES, e3]
    have e1 : safe_api_call oracle 1 = (none, [10, 20, 40, 80]) := by
      rw [safe_api_call, h 1 (by norm_num [MAX_RETRIES])]
      norm_num [MAX_RETRIES, e2]
    rw [safe_api_call, h 0 (by norm_num [MAX_RETRIES])]
    norm_num [MAX_RETRIES, e1]
  · intro oracle r h hsucc
    have e5 : safe_api_call oracle 5 = (some r, []) := by
      rw [safe_api_call]
      rw [show oracle 5 = .success r from hsucc]
    have e4 : safe_api_call oracle 4 = (some r, [80]) := by
      rw [safe_api_call, h 4 (by norm_num [MAX_RETRIES])]
      norm_num [MAX_RETRIES, e5]
    have e3 : safe_api_call oracle 3 = (some r, [40, 80]) := by
      rw [safe_api_call, h 3 (by norm_num [MAX_RETRIES])]
      norm_num [MAX_RETRIES, e4]
    have e2 : safe_api_call oracle 2 = (some r, [20, 40, 80]) := by
      rw [safe_api_call, h 2 (by norm_num [MAX_RETRIES])]
      norm_num [MAX_RETRIES, e3]
    have e1 : safe_api_call oracle 1 = (some r, [10, 20, 40, 80]) := by
      rw [safe_api_call, h 1 (by norm_num [MAX_RETRIES])]
      norm_num [MAX_RETRIES, e2]
    rw [safe_api_call, h 0 (by norm_num [MAX_RETRIES])]
    norm_num [MAX_RETRIES, e1]
  · intro env c now db st b hn hcr
    simp only [processBranchDetail, if_neg hn, hcr]

/-- An oracle that fails on exactly the first MAX_RETRIES attempts and then
delivers a 200 response. -/
def oracleC8 : Nat → AttemptRes := fun k => if k < 5 then .fail else .success 200

/-- Counterexample to C8 as stated: after MAX_RETRIES = 5 failed attempts the
executor does not return null -- it makes one more attempt and returns its
response. -/
theorem claim_C8_counterexample :
    (safe_api_call oracleC8 0).1 = some 200 ∧
    (safe_api_call oracleC8 0).2 = [5, 10, 20, 40, 80] := by
  have h : safe_api_call oracleC8 0 = (some 200, [5, 10, 20, 40, 80]) := by
    simp [safe_api_call, oracleC8, MAX_RETRIES]
  rw [h]
  exact ⟨rfl, rfl⟩

/-- An oracle whose every attempt fails at transport level. -/
def oracleFail : Nat → AttemptRes := fun _ => .fail

/-- Witness for the amended C8: with every attempt failing, the executor
returns None after the waits 5, 10, 20, 40, 80. -/
theorem claim_C8_witness :
    safe_api_call oracleFail 0 = (none, [5, 10, 20, 40, 80]) :=
  claim_C8_retry_backoff.2.1 oracleFail (fun _ _ => rfl)

/-! Merge-resolution: which calls each step can record. -/

theorem mergeStep1_trace (env : MergeEnv) (tr0 : List MergeCall) :
    ∃ ext, (∀ e ∈ ext, e = MergeCall.prSearch ∨ ∃ n, e = MergeCall.prDetail n) ∧
      (mergeStep1 env tr0 = .error (tr0 ++ ext) ∨
        ∃ r, mergeStep1 env tr0 = .ok (r, tr0 ++ ext)) := by
  simp only [mergeStep1]
  split
  · split
    · split
      · exact ⟨[.prSearch], by simp, Or.inl rfl⟩
      · split
        · exact ⟨[.prSearch], by simp, Or.inl rfl⟩
        · rename_i n hn
          split
          · split
            · exact ⟨[.prSearch, .prDetail n], by simp,
                Or.inr ⟨some (env.prDetail n).base_ref, by simp⟩⟩
            · exact ⟨[.prSearch, .prDetail n], by simp,
                Or.inr ⟨none, by simp⟩⟩
          · exact ⟨[.prSearch, .prDetail n], by simp,
              Or.inr ⟨none, by simp⟩⟩
    · exact ⟨[.prSearch], by simp, Or.inr ⟨none, rfl⟩⟩
  · exact ⟨[.prSearch], by simp, Or.inr ⟨none, rfl⟩⟩

theorem mergeStep2_trace (env : MergeEnv) (tr0 : List MergeCall) :
    mergeStep2 env tr0 = .error (tr0 ++ [MergeCall.commitSearch]) ∨
      ∃ r, mergeStep2 env tr0 = .ok (r, tr0 ++ [MergeCall.commitSearch]) := by
  simp only [mergeStep2]
  split
  · split
    · split
      · exact Or.inl rfl
      · exact Or.inr ⟨_, rfl⟩
      · exact Or.inr ⟨_, rfl⟩
    · exact Or.inr ⟨_, rfl⟩
  · exact Or.inr ⟨_, rfl⟩

/-- Claim C6: the merge-resolution fallback chain is strictly ordered.  When
the merged-pull-request search yields a PR whose detail provides a (truthy)
base branch name, that name is returned and the only calls made are the PR
search and the PR detail fetch -- the commit-message regex fallback and the
default-branch co-mention fallback are never evaluated.  The commit search
runs only when step 1 yielded nothing; the default-branch fallback runs only
when steps 1 and 2 both yielded nothing; when every step is inconclusive the
result is "Unknown"; and an exception during resolution (here: a positive
total_count with an empty items array) yields "Error". -/
theorem claim_C6_merge_resolution_chain :
    (∀ (env : MergeEnv) (n : Nat) (b : String),
      env.prSearch.status = 200 → 0 < env.prSearch.total_count →
      env.prSearch.items.head? = some ⟨some n⟩ →
      (env.prDetail n).status = 200 → (env.prDetail n).base_ref = some b → ¬ b = "" →
      find_last_merged_branch env
        = (some b, [MergeCall.prSearch, MergeCall.prDetail n])) ∧
    (∀ (env : MergeEnv) (res : Option String) (tr : List MergeCall),
      find_last_merged_branch env = (res, tr) → MergeCall.commitSearch ∈ tr →
      ∃ tr1, mergeStep1 env [] = .ok (none, tr1)) ∧
    (∀ (env : MergeEnv) (res : Option String) (tr : List MergeCall),
      find_last_merged_branch env = (res, tr) → MergeCall.repoFetch ∈ tr →
      ∃ tr1 tr2, mergeStep1 env [] = .ok (none, tr1) ∧
        mergeStep2 env tr1 = .ok (none, tr2)) ∧
    (∀ (env : MergeEnv) (tr1 tr2 : List MergeCall),
      mergeStep1 env [] = .ok (none, tr1) → mergeStep2 env tr1 = .ok (none, tr2) →
      (¬ env.repoFetch.status = 200 ∨ ¬ env.dbSearch.status = 200 ∨
        env.dbSearch.total_count = 0) →
      (find_last_merged_branch env).1 = some "Unknown") ∧
    (∀ env : MergeEnv,
      env.prSearch.status = 200 → 0 < env.prSearch.total_count →
      env.prSearch.items = [] →
      find_last_merged_branch env = (some "Error", [MergeCall.prSearch])) := by
  refine ⟨?_, ?_, ?_, ?_, ?_⟩
  · intro env n b h1 h2 hh hd1 hd2 hb
    have hs1 : mergeStep1 env []
        = .ok (some (some b), [MergeCall.prSearch, MergeCall.prDetail n]) := by
      simp only [mergeStep1, if_pos h1, if_pos h2, hh]
      rw [if_pos hd1, hd2,
        if_pos (show strTruthy (some b) = true by simp [strTruthy, hb])]
      rfl
    simp only [find_last_merged_branch, find_last_merged_branch_try, hs1]
  · intro env res tr hfind hmem
    obtain ⟨ext, hels, hcase⟩ := mergeStep1_trace env []
    cases hs1 : mergeStep1 env [] with
    | error tr1 =>
      exfalso
      have htr1 : tr1 = ext := by
        rcases hcase with h | ⟨r, h⟩
        · rw [hs1] at h
          simpa using h
        · rw [hs1] at h
          exact absurd h (by simp)
      have hfind2 : find_last_merged_branch env = (some "Error", tr1) := by
        simp only [find_last_merged_branch, find_last_merged_branch_try, hs1]
      rw [hfind2] at hfind
      have htr : tr = tr1 := (congrArg Prod.snd hfind).symm
      rw [htr, htr1] at hmem
      rcases hels _ hmem with h | ⟨k, h⟩
      · exact absurd h (by simp)
      · exact absurd h (by simp)
    | ok v =>
      obtain ⟨r0, tr1⟩ := v
      cases r0 with
      | none => exact ⟨tr1, rfl⟩
      | some r1 =>
        exfalso
        have htr1 : tr1 = ext := by
          rcases hcase with h | ⟨r, h⟩
          · rw [hs1] at h
            exact absurd h (by simp)
          · rw [hs1] at h
            simp only [Except.ok.injEq, Prod.mk.injEq, List.nil_append] at h
            exact h.2
        have hfind2 : find_last_merged_branch env = (r1, tr1) := by
          simp only [find_last_merged_branch, find_last_merged_branch_try, hs1]
        rw [hfind2] at hfind
        have htr : tr = tr1 := (congrArg Prod.snd hfind).symm
        rw [htr, htr1] at hmem
        rcases hels _ hmem with h | ⟨k, h⟩
        · exact absurd h (by simp)
        · exact absurd h (by simp)
  · intro env res tr hfind hmem
    obtain ⟨ext, hels, hcase⟩ := mergeStep1_trace env []
    cases hs1 : mergeStep1 env [] with
    | error tr1 =>
      exfalso
      have htr1 : tr1 = ext := by
        rcases hcase with h | ⟨r, h⟩
        · rw [hs1] at h
          simpa using h
        · rw [hs1] at h
          exact absurd h (by simp)
      have hfind2 : find_last_merged_branch env = (some "Error", tr1) := by
        simp only [find_last_merged_branch, find_last_merged_branch_try, hs1]
      rw [hfind2] at hfind
      have htr : tr = tr1 := (congrArg Prod.snd hfind).symm
      rw [htr, htr1] at hmem
      rcases hels _ hmem with h | ⟨k, h⟩
      · exact absurd h (by simp)
      · exact absurd h (by simp)
    | ok v =>
      obtain ⟨r0, tr1⟩ := v
      have htr1 : tr1 = ext := by
        rcases hcase with h | ⟨r, h⟩
        · rw [hs1] at h
          exact absurd h (by simp)
        · rw [hs1] at h
          simp only [Except.ok.injEq, Prod.mk.injEq, List.nil_append] at h
          exact h.2
      cases r0 with
      | some r1 =>
        exfalso
        have hfind2 : find_last_merged_branch env = (r1, tr1) := by
          simp only [find_last_merged_branch, find_last_merged_branch_try, hs1]
        rw [hfind2] at hfind
        have htr : tr = tr1 := (congrArg Prod.snd hfind).symm
        rw [htr, htr1] at hmem
        rcases hels _ hmem with h | ⟨k, h⟩
        · exact absurd h (by simp)
        · exact absurd h (by simp)
      | none =>
        cases hs2 : mergeStep2 env tr1 with
        | error tr2 =>
          exfalso
          have htr2 : tr2 = tr1 ++ [MergeCall.commitSearch] := by
            rcases mergeStep2_trace env tr1 with h | ⟨r, h⟩
            · rw [hs2] at h
              simpa using h
            · rw [hs2] at h
              exact absurd h (by simp)
          have hfind2 : find_last_merged_branch env = (some "Error", tr2) := by
            simp only [find_last_merged_branch, find_last_merged_branch_try, hs1, hs2]
          rw [hfind2] at hfind
          have htr : tr = tr2 := (congrArg Prod.snd hfind).symm
          rw [htr, htr2, htr1] at hmem
          rcases List.mem_append.mp hmem with h | h
          · rcases hels _ h with h2 | ⟨k, h2⟩
            · exact absurd h2 (by simp)
            · exact absurd h2 (by simp)
          · simp at h
        | ok v2 =>
          obtain ⟨r2, tr2⟩ := v2
          have htr2 : tr2 = tr1 ++ [MergeCall.commitSearch] := by
            rcases mergeStep2_trace env tr1 with h | ⟨r, h⟩
            · rw [hs2] at h
              exact absurd h (by simp)
            · rw [hs2] at h
              simp only [Except.ok.injEq, Prod.mk.injEq] at h
              exact h.2
          cases r2 with
          | some r3 =>
            exfalso
            have hfind2 : find_last_merged_branch env = (r3, tr2) := by
              simp only [find_last_merged_branch, find_last_merged_branch_try, hs1, hs2]
            rw [hfind2] at hfind
            have htr : tr = tr2 := (congrArg Prod.snd hfind).symm
            rw [htr, htr2, htr1] at hmem
            rcases List.mem_append.mp hmem with h | h
            · rcases hels _ h with h2 | ⟨k, h2⟩
              · exact absurd h2 (by simp)
              · exact absurd h2 (by simp)
            · simp at h
          | none => exact ⟨tr1, tr2, rfl, hs2⟩
  · intro env tr1 tr2 hs1 hs2 hcond
    have hfind2 : find_last_merged_branch env = mergeStep3 env tr2 := by
      simp only [find_last_merged_branch, find_last_merged_branch_try, hs1, hs2]
    rw [hfind2]
    rcases hcond with h | h | h
    · simp [mergeStep3, h]
    · by_cases hr : env.repoFetch.status = 200
      · simp [mergeStep3, hr, h]
      · simp [mergeStep3, hr]
    · by_cases hr : env.repoFetch.status = 200
      · by_cases hd : env.dbSearch.status = 200
        · simp [mergeStep3, hr, hd, h]
        · simp [mergeStep3, hr, hd]
      · simp [mergeStep3, hr]
  · intro env h1 h2 hitems
    have hs1 : mergeStep1 env [] = .error [MergeCall.prSearch] := by
      simp only [mergeStep1, if_pos h1, if_pos h2, hitems, List.head?_nil]
      rfl
    simp only [find_last_merged_branch, find_last_merged_branch_try, hs1]

/-- A merge environment where the pull-request search succeeds (PR number 7,
merged into "main") and a merge commit also exists -- used to show the PR
result takes priority. -/
def menvPR : MergeEnv where
  prSearch := { status := 200, total_count := 1, items := [⟨some 7⟩] }
  prDetail := fun _ => { status := 200, base_ref := some "main" }
  commitSearch := { status := 200, total_count := 1, items := [⟨some "Merge dev into main"⟩] }
  repoFetch := { status := 200, default_branch := some "main" }
  dbSearch := { status := 200, total_count := 1, items := [] }
  reSearch := fun _ _ => some "main" 

/-- A merge environment where every step is inconclusive. -/
def menvUnk : MergeEnv where
  prSearch := { status := 403, total_count := 0, items := [] }
  prDetail := fun _ => { status := 403, base_ref := none }
  commitSearch := { status := 403, total_count := 0, items := [] }
  repoFetch := { status := 500, default_branch := none }
  dbSearch := { status := 403, total_count := 0, items := [] }
  reSearch := fun _ _ => none

/-- A merge environment that raises inside the try block: the search reports
a positive total but delivers no items, so items[0] raises IndexError. -/
def menvErr : MergeEnv where
  prSearch := { status := 200, total_count := 3, items := [] }
  prDetail := fun _ => { status := 200, base_ref := some "main" }
  commitSearch := { status := 200, total_count := 0, items := [] }
  repoFetch := { status := 200, default_branch := some "main" }
  dbSearch := { status := 200, total_count := 0, items := [] }
  reSearch := fun _ _ => none

/-- Witness for C6: the priority case returns the PR base branch after just
the two PR calls even though a matching merge commit exists; the
all-inconclusive case returns "Unknown"; the exception case returns "Error". -/
theorem claim_C6_witness :
    find_last_merged_branch menvPR
      = (some "main", [MergeCall.prSearch, MergeCall.prDetail 7]) ∧
    (find_last_merged_branch menvUnk).1 = some "Unknown" ∧
    find_last_merged_branch menvErr = (some "Error", [MergeCall.prSearch]) :=
  ⟨claim_C6_merge_resolution_chain.1 menvPR 7 "main" rfl (by decide) rfl rfl rfl (by decide),
    claim_C6_merge_resolution_chain.2.2.2.1 menvUnk [MergeCall.prSearch]
      [MergeCall.prSearch, MergeCall.commitSearch] rfl rfl (Or.inl (by decide)),
    claim_C6_merge_resolution_chain.2.2.2.2 menvErr rfl (by decide) rfl⟩

end StaleData
